import Mathlib

/-!
# Verification of the `HerculesConfig` configuration engine

Shallow embedding of `src/hercules_config.py` (class `HerculesConfig`):
the override-file resolution (`_find_config_files`), the setting reader
(`get`) and the in-place setting rewriter (`set`).

Text is modelled as `List Char`.  The Python regular-expression calls are
modelled as follows.

* The search pattern `r'\s*%s\s*:\s*(.*)' % setting` (and the variant
  `r'\s*%s\s*:.*'` used for the presence check in `set`) is interpolated
  from the setting name.  For setting names that contain no regex
  metacharacters — the only names the program uses — Python's leftmost
  match semantics reduce to: find the leftmost occurrence of the setting
  that is followed, after a (possibly empty, possibly newline-crossing)
  whitespace run, by a colon; the capture group `(.*)` then takes
  everything after the post-colon whitespace run up to the next `'\n'`
  or the end of the text.  `tryMatch`/`reSearchCapture` implement exactly
  this.  (The leading `\s*` of the pattern only widens the match to the
  left and never changes the capture, so it is not represented.)
* `re.sub(old, new, line)` treats the captured old value `old` as a
  regex pattern.  A small engine (`parsePat`/`matchPs`/`subScan`)
  implements the fragment of Python regex syntax that plain captured
  values can produce: literal characters, `.`, and the quantifiers
  `*`, `+`, `?`, plus backslash escapes of non-alphanumeric characters.
  Patterns using other constructs (classes, groups, alternation,
  anchors, `\letter` escapes) and replacement strings containing a
  backslash (template escapes) are outside the modelled fragment;
  `reSub` returns `none` for them and the embedded `set` propagates
  this as an error, mirroring that the Python behaviour there is not
  modelled.  All theorems below stay inside the modelled fragment.

Whitespace and line-break classes follow Python's `str` semantics:
`\s` matches Unicode whitespace (the common code points are listed) and
`str.splitlines` splits on the listed break characters, treating
`"\r\n"` as a single break.  `os.linesep` is modelled as `"\n"`
(POSIX, the platform the program targets).
-/

namespace Hercules

/-- Python `\s` (whitespace) class, restricted to the common code points. -/
def isPySpace (c : Char) : Bool :=
  c = ' ' || c = '\t' || c = '\n' || c = '\r' || c = '\x0b' || c = '\x0c' ||
  c = '\x1c' || c = '\x1d' || c = '\x1e' || c = '\x1f' || c = '\x85' ||
  c = '\xa0' || c = ' ' || c = ' '

/-- Line-break characters recognised by Python `str.splitlines`. -/
def isLineBreak (c : Char) : Bool :=
  c = '\n' || c = '\r' || c = '\x0b' || c = '\x0c' ||
  c = '\x1c' || c = '\x1d' || c = '\x1e' || c = '\x85' ||
  c = ' ' || c = ' '

theorem isLineBreak_isPySpace {c : Char} (h : isLineBreak c = true) :
    isPySpace c = true := by
  simp only [isLineBreak, Bool.or_eq_true, decide_eq_true_eq] at h
  simp only [isPySpace, Bool.or_eq_true, decide_eq_true_eq]
  tauto

/-- Maximal whitespace run removal (the greedy `\s*`). -/
def dropSpaces (s : List Char) : List Char :=
  s.dropWhile isPySpace

/-- After a `"\r"` break, `str.splitlines` swallows a following `"\n"`. -/
def breakRest (c : Char) (cs : List Char) : List Char :=
  match c, cs with
  | '\r', '\n' :: rest => rest
  | _, rest => rest

theorem breakRest_length_le (c : Char) (cs : List Char) :
    (breakRest c cs).length ≤ cs.length := by
  unfold breakRest
  split
  · simp
  · exact Nat.le_refl _

/-- Python `str.splitlines`: split at break characters (`"\r\n"` counting
as one break), with no entry for a terminator at the end of the string. -/
def splitlines : List Char → List (List Char)
  | [] => []
  | c :: cs =>
    if isLineBreak c then
      [] :: splitlines (breakRest c cs)
    else
      match splitlines cs with
      | [] => [[c]]
      | l :: ls => (c :: l) :: ls
termination_by s => s.length
decreasing_by
  · exact Nat.lt_succ_of_le (breakRest_length_le c cs)
  · exact Nat.lt_succ_self _

/-- `os.linesep.join` on POSIX. -/
def joinLines (ls : List (List Char)) : List Char :=
  (ls.intersperse ['\n']).flatten

theorem joinLines_nil : joinLines [] = [] := rfl

theorem joinLines_single (l : List Char) : joinLines [l] = l := by
  simp [joinLines, List.intersperse]

theorem joinLines_cons (l : List Char) (l' : List Char) (ls : List (List Char)) :
    joinLines (l :: l' :: ls) = l ++ '\n' :: joinLines (l' :: ls) := by
  simp [joinLines, List.intersperse]

/-! ### The search pattern `\s*key\s*:\s*(.*)`

`tryMatch key s` decides whether the pattern (with its leading `\s*`
dropped) matches at the head of `s` and, if so, produces the capture
group: `s` must start with `key`, followed after a whitespace run by a
colon; the capture is the text after the post-colon whitespace run up to
the next newline.  `reSearchCapture` scans left to right and returns the
first position's capture, which is `re.search`'s leftmost match. -/

/-- Match the interpolated pattern at the head of `s`; return the capture. -/
def tryMatch (key s : List Char) : Option (List Char) :=
  if key.isPrefixOf s then
    match dropSpaces (s.drop key.length) with
    | ':' :: rest => some ((dropSpaces rest).takeWhile (fun c => c ≠ '\n'))
    | _ => none
  else none

/-- `re.search(r'\s*%s\s*:\s*(.*)' % key, s)`, returning the capture group
of the leftmost match (`None` becomes `none`). -/
def reSearchCapture (key : List Char) : List Char → Option (List Char)
  | [] => tryMatch key []
  | c :: cs =>
    match tryMatch key (c :: cs) with
    | some v => some v
    | none => reSearchCapture key cs

/-- The presence check `re.search(r'\s*%s\s*:.*' % key, config)` of `set`:
the two interpolated patterns match at exactly the same positions, so the
boolean is shared. -/
def textHasKey (key s : List Char) : Bool :=
  (reSearchCapture key s).isSome

/-! ### A regex engine for `re.sub(old_value, new_value, line)`

The captured old value is handed to `re.sub` as a *pattern*.  The engine
below covers the fragment of Python regex syntax described in the header:
literal characters, `.`, the greedy quantifiers `*`, `+`, `?`, and
backslash escapes of non-alphanumeric characters.  `parsePat` returns
`none` outside this fragment. -/

/-- A regex atom: a literal character, or `.` (any character but `'\n'`). -/
inductive RAtom where
  | lit (c : Char)
  | dot
  deriving DecidableEq, Repr

/-- An atom with its quantifier. -/
inductive RPiece where
  | once (a : RAtom)
  | star (a : RAtom)
  | plus (a : RAtom)
  | opt (a : RAtom)
  deriving DecidableEq, Repr

/-- Characters that are not plain literals in a Python pattern.
A bare quantifier or an unmodelled construct makes `parsePat` fail. -/
def badPatChar (c : Char) : Bool :=
  c = '*' || c = '+' || c = '?' || c = '(' || c = ')' || c = '[' || c = ']' ||
  c = '{' || c = '}' || c = '|' || c = '^' || c = '$'

/-- Emit a parsed atom that turned out to carry no quantifier. -/
def emitP (pending : Option RAtom) (t : List RPiece) : List RPiece :=
  match pending with
  | none => t
  | some a => RPiece.once a :: t

/-- One-pass pattern parser; `pending` is the last atom read, still
waiting for a possible quantifier. -/
def parseGo (pending : Option RAtom) : List Char → Option (List RPiece)
  | [] => some (emitP pending [])
  | c :: rest =>
    if c = '*' then
      match pending with
      | some a => (parseGo none rest).map (fun t => RPiece.star a :: t)
      | none => none
    else if c = '+' then
      match pending with
      | some a => (parseGo none rest).map (fun t => RPiece.plus a :: t)
      | none => none
    else if c = '?' then
      match pending with
      | some a => (parseGo none rest).map (fun t => RPiece.opt a :: t)
      | none => none
    else if c = '\\' then
      match rest with
      | [] => none
      | d :: rest' =>
        if d.isAlphanum then none
        else (parseGo (some (RAtom.lit d)) rest').map (emitP pending)
    else if c = '.' then (parseGo (some RAtom.dot) rest).map (emitP pending)
    else if badPatChar c then none
    else (parseGo (some (RAtom.lit c)) rest).map (emitP pending)

/-- Parse a pattern string into pieces (`none`: outside the modelled
fragment, or a pattern `re.compile` rejects such as a leading `*`). -/
def parsePat (p : List Char) : Option (List RPiece) :=
  parseGo none p

/-- Does an atom match one character? -/
def atomMatch : RAtom → Char → Bool
  | .lit c, d => c = d
  | .dot, d => d ≠ '\n'

/-- Backtracking matcher: the length consumed by the greedy-first match of
the pieces at the head of `s`, or `none`. -/
def matchPs : List RPiece → List Char → Option Nat
  | [], _ => some 0
  | .once _ :: _, [] => none
  | .once a :: ps, c :: cs =>
    if atomMatch a c then (matchPs ps cs).map (· + 1) else none
  | .star _ :: ps, [] => matchPs ps []
  | .star a :: ps, c :: cs =>
    if atomMatch a c then
      match matchPs (.star a :: ps) cs with
      | some n => some (n + 1)
      | none => matchPs ps (c :: cs)
    else matchPs ps (c :: cs)
  | .plus _ :: _, [] => none
  | .plus a :: ps, c :: cs =>
    if atomMatch a c then (matchPs (.star a :: ps) cs).map (· + 1) else none
  | .opt _ :: ps, [] => matchPs ps []
  | .opt a :: ps, c :: cs =>
    if atomMatch a c then
      match matchPs ps cs with
      | some n => some (n + 1)
      | none => matchPs ps (c :: cs)
    else matchPs ps (c :: cs)
termination_by ps s => (s.length, ps.length)

/-- The scan of `re.sub`: leftmost, non-overlapping, greedy; an empty
match emits the replacement and advances one character (Python ≥ 3.7). -/
def subScan (ps : List RPiece) (repl : List Char) : List Char → List Char
  | [] => if (matchPs ps []).isSome then repl else []
  | c :: cs =>
    match matchPs ps (c :: cs) with
    | some 0 => repl ++ c :: subScan ps repl cs
    | some (n + 1) => repl ++ subScan ps repl (cs.drop n)
    | none => c :: subScan ps repl cs
termination_by s => s.length
decreasing_by
  all_goals simp [List.length_drop]
  all_goals omega

/-- `re.sub(pat, repl, s)`.  `none` when the pattern is outside the
modelled fragment or the replacement contains template escapes. -/
def reSub (pat repl s : List Char) : Option (List Char) :=
  if '\\' ∈ repl then none
  else (parsePat pat).map (fun ps => subScan ps repl s)

/-! ### `HerculesConfig.set`, line-rewriting part

The rewrite loop of `set` threads the Python variable `value` through the
iterations: a matching line whose captured value starts with `'"'`
mutates `value` to its quoted form for all later iterations. -/

/-- The quote-preserving re-wrap `value = '"%s"' % value` applied when the
captured old value starts with a double quote. -/
def quoteWrap (c v : List Char) : List Char :=
  if c.head? = some '"' then '"' :: (v ++ ['"']) else v

/-- One iteration of the rewrite loop: the (possibly rewritten) line and
the (possibly re-quoted) pending value.  `none` models a `re.error`. -/
def lineStep (key v line : List Char) : Option (List Char × List Char) :=
  match reSearchCapture key line with
  | none => some (line, v)
  | some c =>
    (reSub c (quoteWrap c v) line).map (fun nl => (nl, quoteWrap c v))

/-- The rewrite loop over `config_lines`, threading the pending value. -/
def setLines (key v : List Char) : List (List Char) → Option (List (List Char))
  | [] => some []
  | l :: ls =>
    match lineStep key v l with
    | none => none
    | some (nl, v') =>
      match setLines key v' ls with
      | none => none
      | some rest => some (nl :: rest)

/-- `HerculesConfig.set` as a file-content transformation: the bytes
written back for given input bytes (`none` models a `re.error`). -/
def setContent (key v config : List Char) : Option (List Char) :=
  let configLines := splitlines config
  if textHasKey key config then
    (setLines key v configLines).map joinLines
  else
    some (joinLines (configLines ++ [key ++ ':' :: ' ' :: v]))

/-! ### The filesystem model and `_find_config_files` / `get` / `set`

A path is its list of components below `hercules_path`; the filesystem
is the ordered list of (path, contents) pairs of the regular files, the
order abstracting the glob traversal order. -/

/-- A file path below `hercules_path`, as components. -/
abbrev FPath := List String

/-- The files below `hercules_path`, in traversal order. -/
structure FS where
  files : List (FPath × List Char)
  deriving Repr

/-- Errors surfaced by the embedded operations.  `ioError` is the
`IOError` raised by `_find_config_files` (the spec's `NotFoundError`);
`attributeError` is the `AttributeError` that `get` raises when
`re.search` returns `None`; `reError` stands for `re.error` and for the
unmodelled corner of `re.sub`. -/
inductive PyErr where
  | ioError
  | attributeError
  | reError
  deriving DecidableEq, Repr

/-- `os.path.basename`: the part after the last `'/'`. -/
def basename (s : String) : String :=
  String.mk ((s.toList.reverse.takeWhile (fun c => ¬c = '/')).reverse)

/-- Does a path match the glob `conf/import/**/<base>` (recursive:
`**` spans zero or more directories)? -/
def isImportMatch (base : String) (p : FPath) : Bool :=
  match p with
  | c :: i :: rest => c = "conf" && i = "import" && rest.getLast? = some base
  | _ => false

/-- Does a path match the glob `conf/**/<base>`? -/
def isConfMatch (base : String) (p : FPath) : Bool :=
  match p with
  | c :: rest => c = "conf" && rest.getLast? = some base
  | [] => false

/-- `HerculesConfig._find_config_files`: the `conf/import` matches in
traversal order, then the remaining `conf` matches not already present;
`IOError` when there are none. -/
def findConfigFiles (fs : FS) (fileName : String) : Except PyErr (List FPath) :=
  let base := basename fileName
  let paths := fs.files.map Prod.fst
  let matchingFiles := paths.filter (isImportMatch base)
  let allMatches := matchingFiles ++
    (paths.filter (isConfMatch base)).filter (fun p => ¬ p ∈ matchingFiles)
  if allMatches = [] then .error .ioError else .ok allMatches

/-- Contents of the file at a path. -/
def readFile (fs : FS) (p : FPath) : Option (List Char) :=
  (fs.files.find? (fun e => e.1 = p)).map Prod.snd

/-- The `for file_name in ...` loop of `HerculesConfig.get`, over the
contents of the candidate files.  Each iteration either returns the
capture group or raises `AttributeError` (`matches` is `None` and
`len(matches.groups())` dereferences it), so no iteration ever falls
through to the next file; an exhausted loop returns Python `None`. -/
def getLoop (key : List Char) : List (List Char) → Except PyErr (Option (List Char))
  | [] => .ok none
  | content :: _ =>
    match reSearchCapture key content with
    | some v => .ok (some v)
    | none => .error .attributeError

/-- `HerculesConfig.get`. -/
def getConfig (fs : FS) (configFile setting : String) :
    Except PyErr (Option (List Char)) := do
  let files ← findConfigFiles fs configFile
  getLoop setting.toList (files.filterMap (readFile fs))

/-- `HerculesConfig.set`: rewrite the first candidate file in place. -/
def setConfig (fs : FS) (fileName setting value : String) : Except PyErr FS := do
  let files ← findConfigFiles fs fileName
  match files with
  | [] => .error .ioError
  | p :: _ =>
    match readFile fs p with
    | none => .error .ioError
    | some config =>
      match setContent setting.toList value.toList config with
      | none => .error .reError
      | some out =>
        .ok ⟨fs.files.map (fun e => if e.1 = p then (e.1, out) else e)⟩

/-! Facts about `splitlines` and `joinLines`. -/

theorem splitlines_nil : splitlines [] = [] := by rw [splitlines]

theorem splitlines_eq_nil_iff {s : List Char} : splitlines s = [] ↔ s = [] := by
  constructor
  · intro h
    cases s with
    | nil => rfl
    | cons c cs =>
      rw [splitlines] at h
      split at h
      · simp at h
      · split at h <;> simp_all
  · rintro rfl; exact splitlines_nil

theorem breakfree_of_mem_splitlines :
    ∀ {s l : List Char}, l ∈ splitlines s → ∀ c ∈ l, isLineBreak c = false := by
  intro s
  induction s using splitlines.induct with
  | case1 => intro l h; rw [splitlines_nil] at h; exact absurd h (List.not_mem_nil _)
  | case2 c cs hbr ih =>
    intro l h
    rw [splitlines, if_pos hbr] at h
    rcases List.mem_cons.mp h with rfl | h
    · intro c hc; exact absurd hc (List.not_mem_nil _)
    · exact ih h
  | case3 c cs hbr hnil =>
    intro l h
    rw [splitlines, if_neg hbr, hnil] at h
    rcases List.mem_cons.mp h with rfl | h
    · intro d hd
      rcases List.mem_cons.mp hd with rfl | hd
      · simpa using hbr
      · exact absurd hd (List.not_mem_nil _)
    · exact absurd h (List.not_mem_nil _)
  | case4 c cs hbr l0 ls0 heq ih =>
    intro l h
    rw [splitlines, if_neg hbr, heq] at h
    rcases List.mem_cons.mp h with rfl | h
    · intro d hd
      rcases List.mem_cons.mp hd with rfl | hd
      · simpa using hbr
      · exact ih (heq ▸ List.mem_cons_self l0 ls0) d hd
    · exact ih (heq ▸ List.mem_cons_of_mem l0 h)

theorem splitlines_single {l : List Char} (hbf : ∀ c ∈ l, isLineBreak c = false)
    (hne : l ≠ []) : splitlines l = [l] := by
  induction l with
  | nil => exact absurd rfl hne
  | cons c cs ih =>
    rw [splitlines]
    rw [if_neg (by simp [hbf c (List.mem_cons_self c cs)])]
    by_cases hcs : cs = []
    · subst hcs; rw [splitlines_nil]
    · rw [ih (fun d hd => hbf d (List.mem_cons_of_mem c hd)) hcs]

theorem splitlines_append_newline {l t : List Char}
    (hbf : ∀ c ∈ l, isLineBreak c = false) :
    splitlines (l ++ '\n' :: t) = l :: splitlines t := by
  induction l with
  | nil =>
    rw [List.nil_append, splitlines, if_pos (by simp [isLineBreak])]
    rfl
  | cons c cs ih =>
    rw [List.cons_append, splitlines]
    rw [if_neg (by simp [hbf c (List.mem_cons_self c cs)])]
    rw [ih (fun d hd => hbf d (List.mem_cons_of_mem c hd))]

theorem splitlines_joinLines :
    ∀ {ls : List (List Char)}, ls ≠ [] →
    (∀ l ∈ ls, ∀ c ∈ l, isLineBreak c = false) →
    ls.getLast? ≠ some [] →
    splitlines (joinLines ls) = ls := by
  intro ls
  induction ls with
  | nil => intro h; exact absurd rfl h
  | cons l ls ih =>
    intro _ hbf hlast
    cases ls with
    | nil =>
      rw [joinLines_single]
      have hl : l ≠ [] := by
        intro h; subst h; exact hlast (by simp)
      exact splitlines_single (hbf l (List.mem_cons_self l [])) hl
    | cons l' ls' =>
      rw [joinLines_cons]
      rw [splitlines_append_newline (hbf l (List.mem_cons_self l _))]
      rw [ih (by simp) (fun x hx => hbf x (List.mem_cons_of_mem l hx))
        (by simpa [List.getLast?_cons_cons] using hlast)]

theorem splitlines_first_part :
    ∀ {s l : List Char} {ls}, splitlines s = l :: ls → ∃ t, l ++ t = s := by
  intro s
  induction s using splitlines.induct with
  | case1 => intro l ls h; rw [splitlines_nil] at h; exact absurd h (by simp)
  | case2 c cs hbr _ =>
    intro l ls h
    rw [splitlines, if_pos hbr] at h
    injection h with h1 _
    exact ⟨c :: cs, by rw [← h1]; rfl⟩
  | case3 c cs hbr hnil =>
    intro l ls h
    rw [splitlines, if_neg hbr, hnil] at h
    have hcs : cs = [] := splitlines_eq_nil_iff.mp hnil
    injection h with h1 _
    exact ⟨[], by simp [hcs, ← h1]⟩
  | case4 c cs hbr l0 ls0 heq ih =>
    intro l ls h
    rw [splitlines, if_neg hbr, heq] at h
    injection h with h1 _
    obtain ⟨t, ht⟩ := ih heq
    exact ⟨t, by rw [← h1, List.cons_append, ht]⟩

theorem seg_of_mem_splitlines :
    ∀ {s l : List Char}, l ∈ splitlines s → ∃ p t, p ++ l ++ t = s := by
  intro s
  induction s using splitlines.induct with
  | case1 => intro l h; rw [splitlines_nil] at h; exact absurd h (List.not_mem_nil _)
  | case2 c cs hbr ih =>
    intro l h
    rw [splitlines, if_pos hbr] at h
    rcases List.mem_cons.mp h with rfl | h
    · exact ⟨[], c :: cs, by simp⟩
    · obtain ⟨p, t, hpt⟩ := ih h
      have : ∃ u, u ++ breakRest c cs = cs := by
        unfold breakRest
        split
        · exact ⟨['\n'], rfl⟩
        · exact ⟨[], rfl⟩
      obtain ⟨u, hu⟩ := this
      exact ⟨c :: (u ++ p), t, by rw [← hu, ← hpt]; simp⟩
  | case3 c cs hbr hnil =>
    intro l h
    rw [splitlines, if_neg hbr, hnil] at h
    rcases List.mem_cons.mp h with rfl | h
    · exact ⟨[], [], by simp [splitlines_eq_nil_iff.mp hnil]⟩
    · exact absurd h (List.not_mem_nil _)
  | case4 c cs hbr l0 ls0 heq ih =>
    intro l h
    rw [splitlines, if_neg hbr, heq] at h
    rcases List.mem_cons.mp h with rfl | h
    · obtain ⟨t, ht⟩ := splitlines_first_part heq
      exact ⟨[], t, by simp [ht]⟩
    · obtain ⟨p, t, hpt⟩ := ih (heq ▸ List.mem_cons_of_mem l0 h)
      exact ⟨c :: p, t, by simp [hpt]⟩

theorem joinLines_getLast? :
    ∀ {ls : List (List Char)} {lst : List Char}, ls.getLast? = some lst → lst ≠ [] →
    (joinLines ls).getLast? = lst.getLast? := by
  intro ls
  induction ls with
  | nil => intro lst h; simp at h
  | cons l ls ih =>
    intro lst h hne
    cases ls with
    | nil =>
      simp only [List.getLast?_singleton, Option.some.injEq] at h
      subst h; rw [joinLines_single]
    | cons l' ls' =>
      rw [List.getLast?_cons_cons] at h
      rw [joinLines_cons]
      have htail := ih h hne
      obtain ⟨z, hz⟩ := Option.isSome_iff_exists.mp (List.getLast?_isSome.mpr hne)
      have hcons : ('\n' :: joinLines (l' :: ls')).getLast? = lst.getLast? := by
        rcases hx : joinLines (l' :: ls') with _ | ⟨y, ys⟩
        · rw [hx] at htail
          simp only [List.getLast?_nil] at htail
          rw [← htail] at hz
          exact absurd hz (by simp)
        · rw [List.getLast?_cons_cons, ← hx, htail]
      rw [List.getLast?_append, hcons, hz]
      rfl

/-! Facts about the search `reSearchCapture`. -/

theorem isPrefixOf_append_self (key x : List Char) :
    key.isPrefixOf (key ++ x) = true := by
  induction key with
  | nil => simp [List.isPrefixOf]
  | cons a as ih => simp [List.isPrefixOf, ih]

theorem isPrefixOf_append_right {key t : List Char} (u : List Char)
    (h : key.isPrefixOf t = true) : key.isPrefixOf (t ++ u) = true := by
  induction key generalizing t with
  | nil => simp [List.isPrefixOf]
  | cons a as ih =>
    cases t with
    | nil => simp [List.isPrefixOf] at h
    | cons b bs =>
      simp only [List.isPrefixOf, Bool.and_eq_true] at h ⊢
      exact ⟨h.1, ih h.2⟩

theorem length_le_of_isPrefixOf {key t : List Char} (h : key.isPrefixOf t = true) :
    key.length ≤ t.length := by
  induction key generalizing t with
  | nil => simp
  | cons a as ih =>
    cases t with
    | nil => simp [List.isPrefixOf] at h
    | cons b bs =>
      simp only [List.isPrefixOf, Bool.and_eq_true] at h
      simpa using ih h.2

theorem dropSpaces_append {a : List Char} (b : List Char) {x : Char} {xs : List Char}
    (h : dropSpaces a = x :: xs) : dropSpaces (a ++ b) = x :: (xs ++ b) := by
  induction a with
  | nil => simp [dropSpaces] at h
  | cons c cs ih =>
    by_cases hc : isPySpace c = true
    · rw [dropSpaces, List.dropWhile_cons, if_pos hc] at h
      rw [List.cons_append, dropSpaces, List.dropWhile_cons, if_pos hc]
      exact ih h
    · rw [dropSpaces, List.dropWhile_cons, if_neg hc] at h
      injection h with h1 h2
      subst h1
      rw [List.cons_append, dropSpaces, List.dropWhile_cons, if_neg hc, h2]

theorem takeWhile_eq_self_of_all {p : Char → Bool} {l : List Char}
    (h : ∀ c ∈ l, p c = true) : l.takeWhile p = l := by
  induction l with
  | nil => rfl
  | cons c cs ih =>
    rw [List.takeWhile_cons, h c (List.mem_cons_self c cs)]
    simp [ih (fun d hd => h d (List.mem_cons_of_mem c hd))]

theorem dropSpaces_cons_of_space {c : Char} (cs : List Char) (h : isPySpace c = true) :
    dropSpaces (c :: cs) = dropSpaces cs := by
  rw [dropSpaces, List.dropWhile_cons, if_pos h]; rfl

theorem dropSpaces_eq_self {l : List Char}
    (h : ∀ x, l.head? = some x → isPySpace x = false) : dropSpaces l = l := by
  cases l with
  | nil => rfl
  | cons c cs =>
    rw [dropSpaces, List.dropWhile_cons, if_neg (by simp [h c rfl])]

theorem tryMatch_head_eq {key s : List Char} {v : List Char}
    (h : tryMatch key s = some v) : reSearchCapture key s = some v := by
  cases s with
  | nil => exact h
  | cons c cs => rw [reSearchCapture, h]

theorem tryMatch_append_isSome {key t : List Char} (u : List Char)
    (h : (tryMatch key t).isSome = true) : (tryMatch key (t ++ u)).isSome = true := by
  rw [tryMatch] at h
  split at h
  case isFalse => simp at h
  case isTrue hpre =>
  rw [tryMatch, if_pos (isPrefixOf_append_right u hpre)]
  have hdrop : (t ++ u).drop key.length = t.drop key.length ++ u := by
    rw [List.drop_append_eq_append_drop]
    rw [Nat.sub_eq_zero_of_le (length_le_of_isPrefixOf hpre)]
    rfl
  rw [hdrop]
  split at h
  case h_2 heq => simp at h
  case h_1 rest heq =>
  rw [dropSpaces_append u heq]
  simp

theorem reSearch_isSome_of_suffix {key t s : List Char}
    (hsuf : t <:+ s) (h : (tryMatch key t).isSome = true) :
    (reSearchCapture key s).isSome = true := by
  obtain ⟨u, rfl⟩ := hsuf
  induction u with
  | nil =>
    cases t with
    | nil => simpa [reSearchCapture] using h
    | cons c cs =>
      rw [List.nil_append, reSearchCapture]
      obtain ⟨v, hv⟩ := Option.isSome_iff_exists.mp h
      rw [hv]; rfl
  | cons d u' ih =>
    rw [List.cons_append, reSearchCapture]
    split
    · rfl
    · exact ih

theorem reSearch_exists_suffix {key s v : List Char}
    (h : reSearchCapture key s = some v) :
    ∃ t, t <:+ s ∧ tryMatch key t = some v := by
  induction s with
  | nil => exact ⟨[], List.suffix_rfl, h⟩
  | cons c cs ih =>
    rw [reSearchCapture] at h
    split at h
    case h_1 w hw =>
      injection h with h1
      subst h1
      exact ⟨c :: cs, List.suffix_rfl, hw⟩
    case h_2 =>
      obtain ⟨t, hsuf, hm⟩ := ih h
      exact ⟨t, hsuf.trans (List.suffix_cons c cs), hm⟩

theorem reSearch_isSome_of_infix {key l s : List Char}
    (hinf : ∃ p t, p ++ l ++ t = s) (h : (reSearchCapture key l).isSome = true) :
    (reSearchCapture key s).isSome = true := by
  obtain ⟨p, t, rfl⟩ := hinf
  obtain ⟨v, hv⟩ := Option.isSome_iff_exists.mp h
  obtain ⟨t0, hsuf, hm⟩ := reSearch_exists_suffix hv
  obtain ⟨u, rfl⟩ := hsuf
  have h1 : (tryMatch key (t0 ++ t)).isSome = true :=
    tryMatch_append_isSome t (by rw [hm]; rfl)
  refine reSearch_isSome_of_suffix ⟨p ++ u, ?_⟩ h1
  simp

theorem textHasKey_of_line {key C l : List Char} (hmem : l ∈ splitlines C)
    (h : (reSearchCapture key l).isSome = true) : textHasKey key C = true := by
  exact reSearch_isSome_of_infix (seg_of_mem_splitlines hmem) h

theorem line_none_of_no_textKey {key C : List Char} (h : textHasKey key C = false) :
    ∀ l ∈ splitlines C, reSearchCapture key l = none := by
  intro l hl
  rcases hres : reSearchCapture key l with _ | v
  · rfl
  · have := textHasKey_of_line hl (by rw [hres]; rfl)
    rw [this] at h
    exact absurd h (by simp)

theorem tryMatch_canonical {key c : List Char}
    (hds : dropSpaces c = c) (hnl : ∀ ch ∈ c, ¬ ch = '\n') :
    tryMatch key (key ++ ':' :: ' ' :: c) = some c := by
  have h1 : dropSpaces (' ' :: c) = c := by
    rw [dropSpaces_cons_of_space c (by decide), hds]
  rw [tryMatch, if_pos (isPrefixOf_append_self key _), List.drop_left]
  rw [dropSpaces_eq_self (by intro x hx; injection hx with h1; subst h1; decide)]
  show some ((dropSpaces (' ' :: c)).takeWhile (fun ch => ch ≠ '\n')) = some c
  rw [h1, takeWhile_eq_self_of_all (by intro d hd; simpa using hnl d hd)]

theorem reSearch_canonical {key c : List Char}
    (hds : dropSpaces c = c) (hnl : ∀ ch ∈ c, ¬ ch = '\n') :
    reSearchCapture key (key ++ ':' :: ' ' :: c) = some c :=
  tryMatch_head_eq (tryMatch_canonical hds hnl)

theorem capture_is_suffix {key l c : List Char}
    (h : reSearchCapture key l = some c) (hnl : ∀ ch ∈ l, ¬ ch = '\n') :
    c <:+ l := by
  obtain ⟨t, hsuf, hm⟩ := reSearch_exists_suffix h
  rw [tryMatch] at hm
  split at hm
  case isFalse => exact absurd hm (by simp)
  case isTrue hpre =>
  split at hm
  case h_2 => exact absurd hm (by simp)
  case h_1 rest heq =>
  injection hm with h1
  have hsub : dropSpaces rest <:+ l := by
    have s1 : rest <:+ dropSpaces (t.drop key.length) := by
      rw [heq]; exact ⟨[':'], rfl⟩
    have s2 : dropSpaces (t.drop key.length) <:+ t.drop key.length :=
      List.dropWhile_suffix _
    have s3 : t.drop key.length <:+ t := List.drop_suffix _ _
    have s4 : dropSpaces rest <:+ rest := List.dropWhile_suffix _
    exact s4.trans ((s1.trans (s2.trans s3)).trans hsuf)
  have hall : ∀ ch ∈ dropSpaces rest, ¬ ch = '\n' := by
    intro ch hch
    exact hnl ch (hsub.subset hch)
  rw [← h1, takeWhile_eq_self_of_all (by intro d hd; simpa using hall d hd)]
  exact hsub

/-! Facts about the `re.sub` engine on plain literal patterns. -/

/-- A character that is its own one-character pattern. -/
def litChar (c : Char) : Bool :=
  !(c = '\\' || c = '.' || badPatChar c)

/-- A pattern string made of plain literal characters only. -/
def plainPat (p : List Char) : Bool :=
  p.all litChar

/-- The pieces a plain literal pattern parses to. -/
def lits (p : List Char) : List RPiece :=
  p.map (fun c => RPiece.once (RAtom.lit c))

theorem lits_nil : lits [] = [] := rfl

theorem lits_cons (c : Char) (p : List Char) :
    lits (c :: p) = RPiece.once (RAtom.lit c) :: lits p := rfl

theorem no_quant_of_badPatChar_false {q : Char} (h : badPatChar q = false) :
    ¬q = '*' ∧ ¬q = '+' ∧ ¬q = '?' := by
  simp only [badPatChar, Bool.or_eq_false_iff, decide_eq_false_iff_not] at h
  tauto

theorem parseGo_cons (pending : Option RAtom) (c : Char) (rest : List Char) :
    parseGo pending (c :: rest) =
      (if c = '*' then
        match pending with
        | some a => (parseGo none rest).map (fun t => RPiece.star a :: t)
        | none => none
      else if c = '+' then
        match pending with
        | some a => (parseGo none rest).map (fun t => RPiece.plus a :: t)
        | none => none
      else if c = '?' then
        match pending with
        | some a => (parseGo none rest).map (fun t => RPiece.opt a :: t)
        | none => none
      else if c = '\\' then
        match rest with
        | [] => none
        | d :: rest' =>
          if d.isAlphanum then none
          else (parseGo (some (RAtom.lit d)) rest').map (emitP pending)
      else if c = '.' then (parseGo (some RAtom.dot) rest).map (emitP pending)
      else if badPatChar c then none
      else (parseGo (some (RAtom.lit c)) rest).map (emitP pending)) := by
  rw [parseGo.eq_def]

theorem parseGo_plain : ∀ {p : List Char}, plainPat p = true →
    ∀ pending, parseGo pending p = some (emitP pending (lits p)) := by
  intro p
  induction p with
  | nil => intro _ pending; rfl
  | cons c rest ih =>
    intro hp pending
    rw [plainPat, List.all_cons, Bool.and_eq_true] at hp
    obtain ⟨hc, hrest⟩ := hp
    rw [litChar] at hc
    simp only [Bool.not_eq_true', Bool.or_eq_false_iff, decide_eq_false_iff_not] at hc
    obtain ⟨⟨hbs, hdot⟩, hbad⟩ := hc
    obtain ⟨q1, q2, q3⟩ := no_quant_of_badPatChar_false hbad
    rw [parseGo_cons, if_neg q1, if_neg q2, if_neg q3, if_neg hbs, if_neg hdot,
      if_neg (by simp [hbad]), ih hrest (some (RAtom.lit c))]
    rfl

theorem parse_plain {p : List Char} (hp : plainPat p = true) :
    parsePat p = some (lits p) :=
  parseGo_plain hp none

theorem matchPs_lits : ∀ (p s : List Char),
    matchPs (lits p) s = if p.isPrefixOf s then some p.length else none := by
  intro p
  induction p with
  | nil => intro s; rw [lits_nil, matchPs]; simp [List.isPrefixOf]
  | cons c p' ih =>
    intro s
    cases s with
    | nil =>
      rw [lits_cons, matchPs]
      simp [List.isPrefixOf]
    | cons d cs =>
      rw [lits_cons, matchPs]
      by_cases hcd : c = d
      · subst hcd
        rw [if_pos (by simp [atomMatch]), ih cs]
        by_cases hpre : p'.isPrefixOf cs = true
        · rw [if_pos hpre, if_pos (by simp [List.isPrefixOf, hpre])]
          simp
        · rw [if_neg hpre, if_neg (by simp [List.isPrefixOf, hpre])]
          rfl
      · rw [if_neg (by simp [atomMatch, hcd])]
        rw [if_neg (by simp [List.isPrefixOf]; intro h; exact absurd h hcd)]

theorem exists_append_of_isPrefixOf : ∀ {p s : List Char},
    p.isPrefixOf s = true → ∃ t, p ++ t = s := by
  intro p
  induction p with
  | nil => intro s _; exact ⟨s, rfl⟩
  | cons c p' ih =>
    intro s h
    cases s with
    | nil => simp [List.isPrefixOf] at h
    | cons d cs =>
      simp only [List.isPrefixOf, Bool.and_eq_true, beq_iff_eq] at h
      obtain ⟨rfl, h2⟩ := h
      obtain ⟨t, ht⟩ := ih h2
      exact ⟨t, by rw [List.cons_append, ht]⟩

/-- Number of positions of `s` (end included) at which `p` starts. -/
def countOcc (p : List Char) : List Char → Nat
  | [] => if p.isPrefixOf [] then 1 else 0
  | c :: cs => (if p.isPrefixOf (c :: cs) then 1 else 0) + countOcc p cs

theorem countOcc_append_self_pos (p : List Char) : ∀ pre, 1 ≤ countOcc p (pre ++ p) := by
  intro pre
  induction pre with
  | nil =>
    rw [List.nil_append]
    cases p with
    | nil => simp [countOcc, List.isPrefixOf]
    | cons c cs =>
      rw [countOcc, if_pos (by simp)]
      simp
  | cons d pre' ih =>
    rw [List.cons_append, countOcc]
    omega

theorem subScan_self (p : List Char) :
    ∀ s, subScan (lits p) p s = s := by
  intro s
  induction s using subScan.induct (lits p) p with
  | case1 hs =>
    rw [subScan, if_pos hs]
    rw [matchPs_lits] at hs
    by_cases hpre : p.isPrefixOf [] = true
    · cases p with
      | nil => rfl
      | cons c cs => simp [List.isPrefixOf] at hpre
    · rw [if_neg hpre] at hs
      simp at hs
  | case2 hs =>
    rw [subScan, if_neg hs]
  | case3 c cs hm ih =>
    simp only [subScan, hm]
    rw [matchPs_lits] at hm
    split at hm
    case isFalse => exact absurd hm (by simp)
    case isTrue hpre =>
      injection hm with h0
      have hp0 : p = [] := by
        cases p with
        | nil => rfl
        | cons x xs => simp at h0
      rw [ih, hp0]
      rfl
  | case4 c cs n hm ih =>
    simp only [subScan, hm]
    rw [matchPs_lits] at hm
    split at hm
    case isFalse => exact absurd hm (by simp)
    case isTrue hpre =>
      injection hm with h0
      obtain ⟨t, ht⟩ := exists_append_of_isPrefixOf hpre
      have hdrop : cs.drop n = t := by
        have hx : (c :: cs).drop p.length = t := by rw [← ht, List.drop_left]
        rw [← hx, h0]
        rfl
      rw [ih, hdrop, ht]
  | case5 c cs hm ih =>
    simp only [subScan, hm, ih]

theorem subScan_unique {p : List Char} (hp : p ≠ []) :
    ∀ pre r, countOcc p (pre ++ p) = 1 → subScan (lits p) r (pre ++ p) = pre ++ r := by
  intro pre
  induction pre with
  | nil =>
    intro r _
    rw [List.nil_append]
    cases hp0 : p with
    | nil => exact absurd hp0 hp
    | cons c cs =>
      rw [subScan, matchPs_lits]
      rw [if_pos (by simp [hp0])]
      rw [← hp0]
      have hlen : p.length = (p.length - 1) + 1 := by
        cases p with
        | nil => exact absurd rfl hp
        | cons x xs => simp
      rw [hp0] at hlen ⊢
      simp only [List.length_cons] at hlen ⊢
      have hdrop : cs.drop cs.length = [] := by simp
      rw [hdrop, subScan, matchPs_lits]
      rw [if_neg (by rw [← hp0]; cases p with
        | nil => exact absurd rfl hp
        | cons x xs => simp [List.isPrefixOf])]
      simp
  | cons d pre' ih =>
    intro r hcount
    rw [List.cons_append] at hcount ⊢
    rw [countOcc] at hcount
    have hnotpre : p.isPrefixOf (d :: (pre' ++ p)) = false := by
      by_contra hx
      rw [Bool.not_eq_false] at hx
      rw [if_pos hx] at hcount
      have := countOcc_append_self_pos p pre'
      omega
    have hrest : countOcc p (pre' ++ p) = 1 := by
      rw [if_neg (by simp [hnotpre])] at hcount
      omega
    rw [subScan, matchPs_lits, if_neg (by simp [hnotpre]), ih r hrest]
    rfl

theorem subScan_chars {ps : List RPiece} {r : List Char} :
    ∀ {s x}, x ∈ subScan ps r s → x ∈ s ∨ x ∈ r := by
  intro s
  induction s using subScan.induct ps r with
  | case1 hs =>
    intro x hx
    rw [subScan, if_pos hs] at hx
    exact Or.inr hx
  | case2 hs =>
    intro x hx
    rw [subScan, if_neg hs] at hx
    exact absurd hx (List.not_mem_nil x)
  | case3 c cs hm ih =>
    intro x hx
    simp only [subScan, hm] at hx
    rcases List.mem_append.mp hx with h | h
    · exact Or.inr h
    · rcases List.mem_cons.mp h with rfl | h
      · exact Or.inl (List.mem_cons_self _ _)
      · rcases ih h with h | h
        · exact Or.inl (List.mem_cons_of_mem c h)
        · exact Or.inr h
  | case4 c cs n hm ih =>
    intro x hx
    simp only [subScan, hm] at hx
    rcases List.mem_append.mp hx with h | h
    · exact Or.inr h
    · rcases ih h with h | h
      · exact Or.inl (List.mem_cons_of_mem c (List.mem_of_mem_drop h))
      · exact Or.inr h
  | case5 c cs hm ih =>
    intro x hx
    simp only [subScan, hm] at hx
    rcases List.mem_cons.mp hx with rfl | h
    · exact Or.inl (List.mem_cons_self _ _)
    · rcases ih h with h | h
      · exact Or.inl (List.mem_cons_of_mem c h)
      · exact Or.inr h

theorem subScan_ne_nil {ps : List RPiece} {r : List Char} {c : Char} {cs : List Char}
    (hr : r ≠ []) : subScan ps r (c :: cs) ≠ [] := by
  rw [subScan]
  split
  · simp
  · simp [hr]
  · simp



/-! Facts about `reSub`, `lineStep`, `setLines` and `setContent`. -/

theorem not_mem_bs_of_plain {p : List Char} (hp : plainPat p = true) : ¬ '\\' ∈ p := by
  intro hmem
  have hall := List.all_eq_true.mp hp '\\' hmem
  simp [litChar, badPatChar] at hall

theorem reSub_self {p : List Char} (hp : plainPat p = true) (s : List Char) :
    reSub p p s = some s := by
  rw [reSub, if_neg (not_mem_bs_of_plain hp), parse_plain hp]
  rw [Option.map_some']
  rw [subScan_self]

theorem reSub_unique {p : List Char} (hp : plainPat p = true) (hne : p ≠ [])
    {r : List Char} (hr : ¬ '\\' ∈ r) (pre : List Char)
    (hcount : countOcc p (pre ++ p) = 1) :
    reSub p r (pre ++ p) = some (pre ++ r) := by
  rw [reSub, if_neg hr, parse_plain hp, Option.map_some']
  rw [subScan_unique hne pre r hcount]

theorem lineStep_nomatch {key v line : List Char}
    (h : reSearchCapture key line = none) : lineStep key v line = some (line, v) := by
  rw [lineStep, h]

theorem plainPat_quoteWrap {c v : List Char} (hv : plainPat v = true) :
    plainPat (quoteWrap c v) = true := by
  rw [quoteWrap]
  split
  · rw [plainPat, List.all_cons]
    rw [List.all_append]
    rw [plainPat] at hv
    rw [hv]
    simp [litChar, badPatChar]
  · exact hv

theorem not_mem_bs_quoteWrap {c v : List Char} (hv : ¬ '\\' ∈ v) :
    ¬ '\\' ∈ quoteWrap c v := by
  rw [quoteWrap]
  split
  · intro hmem
    rcases List.mem_cons.mp hmem with h | h
    · exact absurd h.symm (by decide)
    · rcases List.mem_append.mp h with h | h
      · exact hv h
      · rcases List.mem_cons.mp h with h | h
        · exact absurd h.symm (by decide)
        · exact absurd h (List.not_mem_nil _)
  · exact hv

/-- The canonical matching line `key: old`, rewritten. -/
theorem lineStep_canonical {key c v : List Char}
    (hds : dropSpaces c = c) (hnl : ∀ ch ∈ c, ¬ch = '\n') (hcne : c ≠ [])
    (hcp : plainPat c = true)
    (hcount : countOcc c ((key ++ [':', ' ']) ++ c) = 1)
    (hv : ¬ '\\' ∈ v) :
    lineStep key v (key ++ ':' :: ' ' :: c) =
      some (key ++ ':' :: ' ' :: quoteWrap c v, quoteWrap c v) := by
  have hcap : reSearchCapture key (key ++ ':' :: ' ' :: c) = some c :=
    reSearch_canonical hds hnl
  simp only [lineStep, hcap]
  have hsplit : key ++ ':' :: ' ' :: c = (key ++ [':', ' ']) ++ c := by simp
  rw [hsplit, reSub_unique hcp hcne (not_mem_bs_quoteWrap hv) _ hcount]
  rw [Option.map_some']
  simp

theorem setLines_nil (key v : List Char) : setLines key v [] = some [] := rfl

theorem setLines_cons_nomatch {key v l : List Char} {ls : List (List Char)}
    (h : reSearchCapture key l = none) :
    setLines key v (l :: ls) = (setLines key v ls).map (fun rest => l :: rest) := by
  simp only [setLines, lineStep_nomatch h]
  rcases setLines key v ls with _ | rest
  · rfl
  · rfl

theorem setLines_nonmatch_front {key v : List Char} {A : List (List Char)}
    (hA : ∀ l ∈ A, reSearchCapture key l = none) (B : List (List Char)) :
    setLines key v (A ++ B) = (setLines key v B).map (fun rest => A ++ rest) := by
  induction A with
  | nil =>
    rw [List.nil_append]
    rcases setLines key v B with _ | rest
    · rfl
    · rfl
  | cons l A' ih =>
    rw [List.cons_append, setLines_cons_nomatch (hA l (List.mem_cons_self l A'))]
    rw [ih (fun x hx => hA x (List.mem_cons_of_mem l hx))]
    rcases setLines key v B with _ | rest
    · rfl
    · rfl

theorem setLines_all_nomatch {key v : List Char} {A : List (List Char)}
    (hA : ∀ l ∈ A, reSearchCapture key l = none) :
    setLines key v A = some A := by
  have h := setLines_nonmatch_front (v := v) hA []
  rw [List.append_nil] at h
  rw [h, setLines_nil]
  rw [Option.map_some', List.append_nil]

theorem setContent_append {key v config : List Char}
    (h : textHasKey key config = false) :
    setContent key v config =
      some (joinLines (splitlines config ++ [key ++ ':' :: ' ' :: v])) := by
  rw [setContent, if_neg (by simp [h])]

theorem setContent_rewrite {key v config : List Char}
    (h : textHasKey key config = true) :
    setContent key v config = (setLines key v (splitlines config)).map joinLines := by
  rw [setContent, if_pos h]

/-! Further helpers for the claim theorems. -/

/-- Does the written file end in a line terminator? -/
def endsWithLB (s : List Char) : Bool :=
  match s.getLast? with
  | some c => isLineBreak c
  | none => false

/-- Python `str.strip` (both-ends whitespace trim), used to state what a
"trimmed" result would be. -/
def pyStrip (s : List Char) : List Char :=
  ((s.dropWhile isPySpace).reverse.dropWhile isPySpace).reverse

theorem ne_nl_of_not_break {ch : Char} (h : isLineBreak ch = false) : ¬ch = '\n' := by
  intro he
  subst he
  simp [isLineBreak] at h

theorem quoteWrap_of_not_quote {c v : List Char} (h : ¬c.head? = some '"') :
    quoteWrap c v = v := by
  rw [quoteWrap, if_neg h]

theorem quoteWrap_of_quote {c v : List Char} (h : c.head? = some '"') :
    quoteWrap c v = '"' :: (v ++ ['"']) := by
  rw [quoteWrap, if_pos h]

theorem quoteWrap_idem {c v : List Char} (hvq : ¬v.head? = some '"') :
    quoteWrap (quoteWrap c v) v = quoteWrap c v := by
  by_cases h : c.head? = some '"'
  · rw [quoteWrap_of_quote h]
    rw [quoteWrap_of_quote (by simp)]
  · rw [quoteWrap_of_not_quote h, quoteWrap_of_not_quote hvq]

theorem dropSpaces_quoteWrap {c v : List Char} (hv : dropSpaces v = v) :
    dropSpaces (quoteWrap c v) = quoteWrap c v := by
  by_cases h : c.head? = some '"'
  · rw [quoteWrap_of_quote h]
    exact dropSpaces_eq_self (by intro x hx; injection hx with h1; subst h1; decide)
  · rw [quoteWrap_of_not_quote h]
    exact hv

theorem breakfree_quoteWrap {c v : List Char} (hv : ∀ ch ∈ v, isLineBreak ch = false) :
    ∀ ch ∈ quoteWrap c v, isLineBreak ch = false := by
  intro ch hch
  rw [quoteWrap] at hch
  split at hch
  · rcases List.mem_cons.mp hch with rfl | hch
    · decide
    · rcases List.mem_append.mp hch with h | h
      · exact hv ch h
      · rcases List.mem_cons.mp h with rfl | h
        · decide
        · exact absurd h (List.not_mem_nil _)
  · exact hv ch hch

theorem head_quoteWrap_quote {c v : List Char} (h : c.head? = some '"') :
    (quoteWrap c v).head? = some '"' := by
  rw [quoteWrap_of_quote h]
  rfl

/-- A canonical line whose value is already the (wrapped) pending value is
left byte-identical by the rewrite loop body. -/
theorem lineStep_fixed {key v w : List Char}
    (hds : dropSpaces w = w) (hnl : ∀ ch ∈ w, ¬ch = '\n')
    (hqw : quoteWrap w v = w) (hwp : plainPat w = true) :
    lineStep key v (key ++ ':' :: ' ' :: w) = some (key ++ ':' :: ' ' :: w, w) := by
  have hcap : reSearchCapture key (key ++ ':' :: ' ' :: w) = some w :=
    reSearch_canonical hds hnl
  simp only [lineStep, hcap]
  rw [hqw, reSub_self hwp]
  rfl

/-- The invariant the loop variable `value` keeps during the rewrite loop
of `set` (for C10): nonempty and free of line terminators. -/
def valueInv (v : List Char) : Prop :=
  v ≠ [] ∧ ∀ ch ∈ v, isLineBreak ch = false

theorem valueInv_quoteWrap {c v : List Char} (hv : valueInv v) :
    valueInv (quoteWrap c v) := by
  obtain ⟨hne, hbf⟩ := hv
  constructor
  · rw [quoteWrap]
    split
    · simp
    · exact hne
  · exact breakfree_quoteWrap hbf

theorem lineStep_inv {key v l nl v' : List Char}
    (hstep : lineStep key v l = some (nl, v')) (hv : valueInv v)
    (hl : ∀ ch ∈ l, isLineBreak ch = false) :
    valueInv v' ∧ (∀ ch ∈ nl, isLineBreak ch = false) ∧ (l ≠ [] → nl ≠ []) := by
  rw [lineStep] at hstep
  split at hstep
  case h_1 =>
    injection hstep with h1
    injection h1 with h2 h3
    subst h2; subst h3
    exact ⟨hv, hl, fun h => h⟩
  case h_2 c hcap =>
    rcases hsub : reSub c (quoteWrap c v) l with _ | w
    · rw [hsub] at hstep
      exact absurd hstep (by simp)
    · rw [hsub, Option.map_some'] at hstep
      injection hstep with h1
      injection h1 with h2 h3
      subst h2; subst h3
      refine ⟨valueInv_quoteWrap hv, ?_, ?_⟩
      · rw [reSub] at hsub
        split at hsub
        · exact absurd hsub (by simp)
        · rcases hps : parsePat c with _ | ps
          · rw [hps] at hsub; exact absurd hsub (by simp)
          · rw [hps, Option.map_some'] at hsub
            injection hsub with h4
            subst h4
            intro ch hch
            rcases subScan_chars hch with h | h
            · exact hl ch h
            · exact breakfree_quoteWrap hv.2 ch h
      · intro hlne
        rw [reSub] at hsub
        split at hsub
        · exact absurd hsub (by simp)
        · rcases hps : parsePat c with _ | ps
          · rw [hps] at hsub; exact absurd hsub (by simp)
          · rw [hps, Option.map_some'] at hsub
            injection hsub with h4
            subst h4
            cases l with
            | nil => exact absurd rfl hlne
            | cons c0 cs0 =>
              exact subScan_ne_nil (valueInv_quoteWrap hv).1

theorem setLines_last_inv {key : List Char} :
    ∀ {ls : List (List Char)} {v : List Char} {ls' : List (List Char)},
    setLines key v ls = some ls' → valueInv v →
    (∀ l ∈ ls, ∀ ch ∈ l, isLineBreak ch = false) →
    ∀ lst, ls.getLast? = some lst → lst ≠ [] →
    ∃ lst', ls'.getLast? = some lst' ∧ lst' ≠ [] ∧
      ∀ ch ∈ lst', isLineBreak ch = false := by
  intro ls
  induction ls with
  | nil => intro v ls' _ _ _ lst h; simp at h
  | cons l ls0 ih =>
    intro v ls' hset hv hbf lst hlast hlstne
    rw [setLines] at hset
    rcases hstep : lineStep key v l with _ | p
    · rw [hstep] at hset; exact absurd hset (by simp)
    · obtain ⟨nl, v'⟩ := p
      simp only [hstep] at hset
      rcases hrest : setLines key v' ls0 with _ | rest
      · rw [hrest] at hset; exact absurd hset (by simp)
      · simp only [hrest] at hset
        injection hset with h1
        subst h1
        obtain ⟨hv', hnlbf, hne⟩ :=
          lineStep_inv hstep hv (hbf l (List.mem_cons_self l ls0))
        cases ls0 with
        | nil =>
          injection hrest with h2
          subst h2
          simp only [List.getLast?_singleton, Option.some.injEq] at hlast
          subst hlast
          exact ⟨nl, by simp, hne hlstne, hnlbf⟩
        | cons l0 ls1 =>
          rw [List.getLast?_cons_cons] at hlast
          obtain ⟨lst', hgl, hlne', hbf'⟩ :=
            ih hrest hv' (fun x hx => hbf x (List.mem_cons_of_mem l hx)) lst hlast hlstne
          cases rest with
          | nil => simp at hgl
          | cons r0 rs =>
            exact ⟨lst', by rw [List.getLast?_cons_cons]; exact hgl, hlne', hbf'⟩

theorem textHasKey_nil (key : List Char) : textHasKey key [] = false := by
  rw [textHasKey, reSearchCapture, tryMatch]
  split
  · simp [dropSpaces]
  · rfl

theorem getLast?_append_of_ne_nil {α : Type} (X : List α) {B : List α} (h : B ≠ []) :
    (X ++ B).getLast? = B.getLast? := by
  obtain ⟨x, hx⟩ := Option.isSome_iff_exists.mp (List.getLast?_isSome.mpr h)
  rw [List.getLast?_append, hx]
  rfl

theorem last_of_three_ne_nil {A B : List (List Char)} {M : List Char}
    (hM : M ≠ []) (hB : ¬B.getLast? = some []) :
    ¬(A ++ [M] ++ B).getLast? = some [] := by
  cases B with
  | nil =>
    rw [List.append_nil, List.getLast?_concat]
    intro h
    injection h with h1
    exact hM h1
  | cons b bs =>
    rw [getLast?_append_of_ne_nil _ (by simp)]
    exact hB

/-- The rewrite of a matching line whose captured value is a plain pattern
occurring exactly once: exactly the captured suffix is replaced. -/
theorem lineStep_unique {key v line c : List Char}
    (hcap : reSearchCapture key line = some c)
    (hline : ∀ ch ∈ line, ¬ch = '\n')
    (hcne : c ≠ []) (hcp : plainPat c = true)
    (hcount : countOcc c line = 1)
    (hv : ¬ '\\' ∈ v) :
    lineStep key v line =
      some (line.take (line.length - c.length) ++ quoteWrap c v, quoteWrap c v) := by
  obtain ⟨P, hP⟩ := capture_is_suffix hcap hline
  simp only [lineStep, hcap]
  rw [← hP] at hcount ⊢
  rw [reSub_unique hcp hcne (not_mem_bs_quoteWrap hv) P hcount, Option.map_some']
  have hlen : (P ++ c).length - c.length = P.length := by simp
  rw [hlen, List.take_left]

/-! Claim theorems. -/

/-- C9: key matching is unanchored substring matching: a file whose only
line is `login_port: 5` answers a `get` for the setting `port` with `5`,
and a `set` of `port` rewrites the `login_port` line in place instead of
appending a new `port: 6` line. -/
theorem C9_unanchored_substring_match :
    getLoop "port".toList ["login_port: 5".toList] = Except.ok (some "5".toList) ∧
    setContent "port".toList "6".toList "login_port: 5".toList =
      some "login_port: 6".toList := by
  constructor
  · simp +decide [getLoop, reSearchCapture, tryMatch, dropSpaces, isPySpace]
  · simp +decide [setContent, textHasKey, reSearchCapture, tryMatch, dropSpaces,
      isPySpace, splitlines, breakRest, isLineBreak, setLines, lineStep, reSub,
      quoteWrap, parsePat, parseGo, emitP, badPatChar, matchPs, atomMatch,
      subScan, joinLines]

/-- C1 (code bug): on a basename that resolves to a file not containing
the key, `get` does not return an absent result — `matches.groups()` is
called on `re.search`'s `None` and the call raises `AttributeError`.
The claim (and the spec's stated intent) is the absent result. -/
theorem C1_get_raises_on_missing_key :
    getConfig ⟨[(["conf", "x.conf"], "foo: 1".toList)]⟩ "x.conf" "bar" =
      Except.error PyErr.attributeError := by
  simp +decide [getConfig, findConfigFiles, basename, isImportMatch, isConfMatch,
    readFile, getLoop, reSearchCapture, tryMatch, dropSpaces, isPySpace,
    Bind.bind, Except.bind]

/-- C5 counterexample: the file `"key\n: 1"` has no *line* matching the
key `key`, yet `set` appends nothing: the presence check runs on the whole
text and its `\s*` crosses the line boundary, so the rewrite path is taken
and the file is left unchanged instead of gaining a `key: 2` line. -/
theorem C5_counterexample :
    splitlines "key\n: 1".toList = ["key".toList, ": 1".toList] ∧
    reSearchCapture "key".toList "key".toList = none ∧
    reSearchCapture "key".toList ": 1".toList = none ∧
    setContent "key".toList "2".toList "key\n: 1".toList =
      some "key\n: 1".toList := by
  refine ⟨?_, by decide, by decide, ?_⟩
  · simp +decide [splitlines, breakRest, isLineBreak]
  · simp +decide [setContent, textHasKey, reSearchCapture, tryMatch, dropSpaces,
      isPySpace, splitlines, breakRest, isLineBreak, setLines, lineStep, reSub,
      quoteWrap, parsePat, parseGo, emitP, badPatChar, matchPs, atomMatch,
      subScan, joinLines]

/-- C5 amended: append-on-absence holds when the *full text* contains no
match of the key pattern (the source's actual trigger; since `\s` crosses
line boundaries this is slightly stronger than "no line matches"): `set`
appends exactly one line `key: value` at the end and preserves all prior
lines unchanged and in order. -/
theorem C5_append_on_absence {key v config : List Char}
    (h : textHasKey key config = false)
    (hkbf : ∀ ch ∈ key, isLineBreak ch = false)
    (hvbf : ∀ ch ∈ v, isLineBreak ch = false) :
    setContent key v config =
      some (joinLines (splitlines config ++ [key ++ ':' :: ' ' :: v])) ∧
    ∀ out, setContent key v config = some out →
      splitlines out = splitlines config ++ [key ++ ':' :: ' ' :: v] := by
  have hNbf : ∀ ch ∈ key ++ ':' :: ' ' :: v, isLineBreak ch = false := by
    intro ch hch
    rcases List.mem_append.mp hch with h1 | h1
    · exact hkbf ch h1
    · rcases List.mem_cons.mp h1 with rfl | h1
      · decide
      · rcases List.mem_cons.mp h1 with rfl | h1
        · decide
        · exact hvbf ch h1
  refine ⟨setContent_append h, ?_⟩
  intro out hout
  rw [setContent_append h] at hout
  injection hout with h1
  subst h1
  apply splitlines_joinLines (by simp)
  · intro l hl
    rcases List.mem_append.mp hl with h1 | h1
    · exact breakfree_of_mem_splitlines h1
    · rcases List.mem_cons.mp h1 with rfl | h1
      · exact hNbf
      · exact absurd h1 (List.not_mem_nil _)
  · rw [List.getLast?_concat]
    intro hx
    injection hx with h2
    exact absurd h2 (by simp)

/-- C5 witness: appending `k: 2` to the one-line file `a`. -/
theorem C5_append_on_absence_witness :
    textHasKey "k".toList "a".toList = false ∧
    setContent "k".toList "2".toList "a".toList = some "a\nk: 2".toList := by
  have hfalse : textHasKey "k".toList "a".toList = false := by decide
  refine ⟨hfalse, ?_⟩
  have h := (@C5_append_on_absence "k".toList "2".toList "a".toList
    hfalse (by decide) (by decide)).1
  rw [h]
  simp +decide [splitlines, breakRest, isLineBreak, joinLines]

/-- C7 counterexample: `re.sub` replaces *every* occurrence of the
captured value in the line, not only the captured substring: on the
one-line file `5 x: 5` (capture `5`), `set(x, 6)` also rewrites the `5`
in the prefix, producing `6 x: 6` instead of `5 x: 6`. -/
theorem C7_counterexample :
    reSearchCapture "x".toList "5 x: 5".toList = some "5".toList ∧
    setContent "x".toList "6".toList "5 x: 5".toList = some "6 x: 6".toList ∧
    "6 x: 6".toList ≠ "5 x: 6".toList := by
  refine ⟨by decide, ?_, by decide⟩
  simp +decide [setContent, textHasKey, reSearchCapture, tryMatch, dropSpaces,
    isPySpace, splitlines, breakRest, isLineBreak, setLines, lineStep, reSub,
    quoteWrap, parsePat, parseGo, emitP, badPatChar, matchPs, atomMatch,
    subScan, joinLines]

/-- C7 amended: when the captured value is a plain (metacharacter-free)
pattern and occurs exactly once in the line — necessarily as the suffix
the capture group took — the rewrite replaces exactly that captured
suffix with the (possibly quoted) new value and leaves the rest of the
line untouched. -/
theorem C7_replace_captured_suffix {key v line c : List Char}
    (hcap : reSearchCapture key line = some c)
    (hline : ∀ ch ∈ line, ¬ch = '\n')
    (hcne : c ≠ []) (hcp : plainPat c = true)
    (hcount : countOcc c line = 1)
    (hv : ¬ '\\' ∈ v) :
    lineStep key v line =
      some (line.take (line.length - c.length) ++ quoteWrap c v, quoteWrap c v) :=
  lineStep_unique hcap hline hcne hcp hcount hv

/-- C7 witness: the line `x: 5` with new value `6` becomes `x: 6`. -/
theorem C7_replace_captured_suffix_witness :
    reSearchCapture "x".toList "x: 5".toList = some "5".toList ∧
    lineStep "x".toList "6".toList "x: 5".toList =
      some ("x: 6".toList, "6".toList) := by
  refine ⟨by decide, ?_⟩
  have h := @C7_replace_captured_suffix "x".toList "6".toList
    "x: 5".toList "5".toList
    (by decide) (by decide) (by decide) (by decide) (by decide) (by decide)
  rw [h]
  rfl

/-- C4 counterexample: quoting is not preserved per line, because the loop
variable `value` is mutated: after the quoted line `k: "a"` wraps the
value in quotes, the *unquoted* line `k: a` receives the quoted value —
`set(k, x)` turns `k: "a"\nk: a` into `k: "x"\nk: "x"`, writing quotes
into a line whose existing value was unquoted. -/
theorem C4_counterexample :
    reSearchCapture "k".toList "k: a".toList = some "a".toList ∧
    ¬("a".toList.head? = some '"') ∧
    setContent "k".toList "x".toList "k: \"a\"\nk: a".toList =
      some "k: \"x\"\nk: \"x\"".toList ∧
    splitlines "k: \"x\"\nk: \"x\"".toList =
      ["k: \"x\"".toList, "k: \"x\"".toList] ∧
    "k: \"x\"".toList ≠ "k: x".toList := by
  refine ⟨by decide, by decide, ?_, ?_, by decide⟩
  · simp +decide [setContent, textHasKey, reSearchCapture, tryMatch, dropSpaces,
      isPySpace, splitlines, breakRest, isLineBreak, setLines, lineStep, reSub,
      quoteWrap, parsePat, parseGo, emitP, badPatChar, matchPs, atomMatch,
      subScan, joinLines]
  · simp +decide [splitlines, breakRest, isLineBreak]

/-- C4 amended: quote preservation holds per matching line with respect to
the *pending* value (in particular for the first matching line, where the
pending value is the caller's value), provided the captured value is a
plain pattern occurring exactly once in the line: a quoted capture is
replaced by the value wrapped in double quotes, an unquoted capture by
the bare value. -/
theorem C4_quote_preservation {key v line c : List Char}
    (hcap : reSearchCapture key line = some c)
    (hline : ∀ ch ∈ line, ¬ch = '\n')
    (hcne : c ≠ []) (hcp : plainPat c = true)
    (hcount : countOcc c line = 1)
    (hv : ¬ '\\' ∈ v) :
    (c.head? = some '"' →
      lineStep key v line =
        some (line.take (line.length - c.length) ++ '"' :: (v ++ ['"']),
          '"' :: (v ++ ['"']))) ∧
    (¬c.head? = some '"' →
      lineStep key v line =
        some (line.take (line.length - c.length) ++ v, v)) := by
  have h := lineStep_unique hcap hline hcne hcp hcount hv
  constructor
  · intro hq
    rw [quoteWrap_of_quote hq] at h
    exact h
  · intro hq
    rw [quoteWrap_of_not_quote hq] at h
    exact h

/-- C4 witness: the quoted line `k: "a"` becomes `k: "x"`. -/
theorem C4_quote_preservation_witness :
    reSearchCapture "k".toList "k: \"a\"".toList = some "\"a\"".toList ∧
    lineStep "k".toList "x".toList "k: \"a\"".toList =
      some ("k: \"x\"".toList, "\"x\"".toList) := by
  refine ⟨by decide, ?_⟩
  have h := (@C4_quote_preservation "k".toList "x".toList
    "k: \"a\"".toList "\"a\"".toList
    (by decide) (by decide) (by decide) (by decide) (by decide) (by decide)).1
    (by decide)
  rw [h]
  rfl

/-- C6 counterexample: the non-destructive rewrite fails when the captured
value also occurs in the untouched part of its line: with lines
`[a, k: k, b]`, where `a` and `b` do not match `k`, `set(k, v)` produces
`[a, v: v, b]` — the key itself is overwritten — instead of `[a, k: v, b]`. -/
theorem C6_counterexample :
    splitlines "a\nk: k\nb".toList = ["a".toList, "k: k".toList, "b".toList] ∧
    reSearchCapture "k".toList "a".toList = none ∧
    reSearchCapture "k".toList "b".toList = none ∧
    setContent "k".toList "v".toList "a\nk: k\nb".toList =
      some "a\nv: v\nb".toList ∧
    "a\nv: v\nb".toList ≠ "a\nk: v\nb".toList := by
  refine ⟨?_, by decide, by decide, ?_, by decide⟩
  · simp +decide [splitlines, breakRest, isLineBreak]
  · simp +decide [setContent, textHasKey, reSearchCapture, tryMatch, dropSpaces,
      isPySpace, splitlines, breakRest, isLineBreak, setLines, lineStep, reSub,
      quoteWrap, parsePat, parseGo, emitP, badPatChar, matchPs, atomMatch,
      subScan, joinLines]

/-- C6 amended: the non-destructive rewrite `[A, key: old, B] ↦
[A, key: new, B]` holds provided the old value is a plain
(metacharacter-free) pattern occurring exactly once in its line (and the
usual framing: A and B do not match the key, no line carries a terminator,
the file does not end in an empty line, the old value is unquoted). -/
theorem C6_nondestructive_rewrite {key c v : List Char} {A B : List (List Char)}
    (hA : ∀ l ∈ A, reSearchCapture key l = none)
    (hB : ∀ l ∈ B, reSearchCapture key l = none)
    (hAbf : ∀ l ∈ A, ∀ ch ∈ l, isLineBreak ch = false)
    (hBbf : ∀ l ∈ B, ∀ ch ∈ l, isLineBreak ch = false)
    (hkbf : ∀ ch ∈ key, isLineBreak ch = false)
    (hcbf : ∀ ch ∈ c, isLineBreak ch = false)
    (hds : dropSpaces c = c) (hcne : c ≠ []) (hcp : plainPat c = true)
    (hcount : countOcc c ((key ++ [':', ' ']) ++ c) = 1)
    (hnq : ¬c.head? = some '"') (hv : ¬ '\\' ∈ v)
    (hlastB : ¬B.getLast? = some []) :
    setContent key v (joinLines (A ++ [key ++ ':' :: ' ' :: c] ++ B)) =
      some (joinLines (A ++ [key ++ ':' :: ' ' :: v] ++ B)) := by
  have hnlc : ∀ ch ∈ c, ¬ch = '\n' := fun ch h => ne_nl_of_not_break (hcbf ch h)
  have hMbf : ∀ ch ∈ key ++ ':' :: ' ' :: c, isLineBreak ch = false := by
    intro ch hch
    rcases List.mem_append.mp hch with h1 | h1
    · exact hkbf ch h1
    · rcases List.mem_cons.mp h1 with rfl | h1
      · decide
      · rcases List.mem_cons.mp h1 with rfl | h1
        · decide
        · exact hcbf ch h1
  have hsplit :
      splitlines (joinLines (A ++ [key ++ ':' :: ' ' :: c] ++ B)) =
        A ++ [key ++ ':' :: ' ' :: c] ++ B := by
    apply splitlines_joinLines (by simp)
    · intro l hl
      rcases List.mem_append.mp hl with h1 | h1
      · rcases List.mem_append.mp h1 with h2 | h2
        · exact hAbf l h2
        · rcases List.mem_cons.mp h2 with rfl | h2
          · exact hMbf
          · exact absurd h2 (List.not_mem_nil _)
      · exact hBbf l h1
    · exact last_of_three_ne_nil (by simp) hlastB
  have hcapM : reSearchCapture key (key ++ ':' :: ' ' :: c) = some c :=
    reSearch_canonical hds hnlc
  have hhask : textHasKey key (joinLines (A ++ [key ++ ':' :: ' ' :: c] ++ B)) = true := by
    apply textHasKey_of_line (l := key ++ ':' :: ' ' :: c)
    · rw [hsplit]; simp
    · rw [hcapM]; rfl
  rw [setContent_rewrite hhask, hsplit, List.append_assoc]
  rw [setLines_nonmatch_front hA]
  have hstep : lineStep key v (key ++ ':' :: ' ' :: c) =
      some (key ++ ':' :: ' ' :: quoteWrap c v, quoteWrap c v) :=
    lineStep_canonical hds hnlc hcne hcp hcount hv
  rw [quoteWrap_of_not_quote hnq] at hstep
  have hsl : setLines key v ((key ++ ':' :: ' ' :: c) :: B) =
      some ((key ++ ':' :: ' ' :: v) :: B) := by
    simp only [setLines, hstep, setLines_all_nomatch hB]
  rw [show ([key ++ ':' :: ' ' :: c] ++ B) = (key ++ ':' :: ' ' :: c) :: B from rfl]
  rw [hsl, Option.map_some', Option.map_some']
  rw [show (A ++ (key ++ ':' :: ' ' :: v) :: B) = A ++ [key ++ ':' :: ' ' :: v] ++ B by simp]

/-- C6 witness: `[a, k: 1, b]` becomes `[a, k: 2, b]`. -/
theorem C6_nondestructive_rewrite_witness :
    setContent "k".toList "2".toList "a\nk: 1\nb".toList =
      some "a\nk: 2\nb".toList := by
  have h := @C6_nondestructive_rewrite "k".toList "1".toList
    "2".toList ["a".toList] ["b".toList]
    (by decide) (by decide) (by decide) (by decide) (by decide) (by decide)
    (by decide) (by decide) (by decide) (by decide) (by decide) (by decide)
    (by decide)
  have e1 : joinLines (["a".toList] ++ ["k".toList ++ ':' :: ' ' :: "1".toList]
      ++ ["b".toList]) = "a\nk: 1\nb".toList := by
    simp +decide [joinLines]
  have e2 : joinLines (["a".toList] ++ ["k".toList ++ ':' :: ' ' :: "2".toList]
      ++ ["b".toList]) = "a\nk: 2\nb".toList := by
    simp +decide [joinLines]
  rw [e1, e2] at h
  exact h

theorem mem_of_getLast?_eq {α : Type} {l : List α} {x : α}
    (h : l.getLast? = some x) : x ∈ l := by
  obtain ⟨hh, heq⟩ := List.mem_getLast?_eq_getLast (Option.mem_def.mpr h)
  exact heq ▸ List.getLast_mem hh

/-- C10 counterexample: the rewritten file can still end in a line
terminator: `"k: 1\n\n"` splits into the lines `[k: 1, ""]`, the final
empty line survives the rewrite, and the join re-creates a trailing
`'\n'` — `set(k, 2)` writes `"k: 2\n"`. -/
theorem C10_counterexample :
    endsWithLB "k: 1\n\n".toList = true ∧
    setContent "k".toList "2".toList "k: 1\n\n".toList = some "k: 2\n".toList ∧
    endsWithLB "k: 2\n".toList = true := by
  refine ⟨by decide, ?_, by decide⟩
  simp +decide [setContent, textHasKey, reSearchCapture, tryMatch, dropSpaces,
    isPySpace, splitlines, breakRest, isLineBreak, setLines, lineStep, reSub,
    quoteWrap, parsePat, parseGo, emitP, badPatChar, matchPs, atomMatch,
    subScan, joinLines]

/-- C10 amended: `set` writes the line sequence joined with `'\n'` and no
terminator of its own; the result does not end in a line terminator
provided the input's final line is nonempty (a trailing blank line is
rejoined as a trailing `'\n'`) and the new value is nonempty and free of
terminator characters. -/
theorem C10_no_trailing_terminator {key v config : List Char}
    (hvne : v ≠ []) (hvbf : ∀ ch ∈ v, isLineBreak ch = false)
    (hlast : ¬(splitlines config).getLast? = some []) :
    ∀ out, setContent key v config = some out → endsWithLB out = false := by
  intro out hout
  rw [setContent] at hout
  split at hout
  case isTrue hhask =>
    rcases hsl : setLines key v (splitlines config) with _ | ls'
    · rw [hsl] at hout; exact absurd hout (by simp)
    · rw [hsl, Option.map_some'] at hout
      injection hout with h1
      subst h1
      have hcfg_ne : config ≠ [] := by
        intro hz
        rw [hz, textHasKey_nil] at hhask
        exact absurd hhask (by simp)
      have hlines_ne : splitlines config ≠ [] := by
        intro hz
        exact hcfg_ne (splitlines_eq_nil_iff.mp hz)
      obtain ⟨lst, hlst⟩ :=
        Option.isSome_iff_exists.mp (List.getLast?_isSome.mpr hlines_ne)
      have hlst_ne : lst ≠ [] := by
        intro hz
        subst hz
        exact hlast hlst
      obtain ⟨lst', hgl', hne', hbf'⟩ :=
        setLines_last_inv hsl ⟨hvne, hvbf⟩
          (fun l hl => breakfree_of_mem_splitlines hl) lst hlst hlst_ne
      have hjoin := joinLines_getLast? hgl' hne'
      obtain ⟨ch, hch⟩ :=
        Option.isSome_iff_exists.mp (List.getLast?_isSome.mpr hne')
      rw [hch] at hjoin
      simp only [endsWithLB, hjoin]
      exact hbf' ch (mem_of_getLast?_eq hch)
  case isFalse hhask =>
    injection hout with h1
    subst h1
    have hN : key ++ ':' :: ' ' :: v = (key ++ [':', ' ']) ++ v := by simp
    have hNlast : (key ++ ':' :: ' ' :: v).getLast? = v.getLast? := by
      rw [hN, getLast?_append_of_ne_nil _ hvne]
    have hNne : key ++ ':' :: ' ' :: v ≠ [] := by simp
    have hgl : (splitlines config ++ [key ++ ':' :: ' ' :: v]).getLast? =
        some (key ++ ':' :: ' ' :: v) := List.getLast?_concat _
    have hjoin := joinLines_getLast? hgl hNne
    obtain ⟨ch, hch⟩ :=
      Option.isSome_iff_exists.mp (List.getLast?_isSome.mpr hvne)
    rw [hNlast, hch] at hjoin
    simp only [endsWithLB, hjoin]
    exact hvbf ch (mem_of_getLast?_eq hch)

/-- C10 witness: rewriting `"k: 1\n"` drops the trailing newline and the
result `"k: 2"` ends in no terminator. -/
theorem C10_no_trailing_terminator_witness :
    ¬(splitlines "k: 1\n".toList).getLast? = some [] ∧
    setContent "k".toList "2".toList "k: 1\n".toList = some "k: 2".toList ∧
    endsWithLB "k: 2".toList = false := by
  have hsplit : splitlines "k: 1\n".toList = ["k: 1".toList] := by
    simp +decide [splitlines, breakRest, isLineBreak]
  have hlast : ¬(splitlines "k: 1\n".toList).getLast? = some [] := by
    rw [hsplit]; decide
  have hset : setContent "k".toList "2".toList "k: 1\n".toList =
      some "k: 2".toList := by
    simp +decide [setContent, textHasKey, reSearchCapture, tryMatch, dropSpaces,
      isPySpace, splitlines, breakRest, isLineBreak, setLines, lineStep, reSub,
      quoteWrap, parsePat, parseGo, emitP, badPatChar, matchPs, atomMatch,
      subScan, joinLines]
  exact ⟨hlast, hset,
    C10_no_trailing_terminator (by decide) (by decide) hlast _ hset⟩

theorem head_dropWhile_not {p : Char → Bool} :
    ∀ {l : List Char} {x : Char}, (l.dropWhile p).head? = some x → p x = false := by
  intro l
  induction l with
  | nil => intro x h; simp at h
  | cons c cs ih =>
    intro x h
    rw [List.dropWhile_cons] at h
    split at h
    · exact ih h
    · injection h with h1
      subst h1
      rename_i hc
      simpa using hc

theorem head?_takeWhile {p : Char → Bool} {l : List Char} {x : Char}
    (h : (l.takeWhile p).head? = some x) : l.head? = some x := by
  cases l with
  | nil => simp at h
  | cons c cs =>
    rw [List.takeWhile_cons] at h
    split at h
    · injection h with h1; subst h1; rfl
    · simp at h

/-- The capture group never starts with whitespace: the greedy `\s*` after
the colon has swallowed it. -/
theorem capture_no_leading_space {key l w : List Char}
    (h : reSearchCapture key l = some w) : w.dropWhile isPySpace = w := by
  obtain ⟨t, _, hm⟩ := reSearch_exists_suffix h
  rw [tryMatch] at hm
  split at hm
  case isFalse => exact absurd hm (by simp)
  case isTrue =>
  split at hm
  case h_2 => exact absurd hm (by simp)
  case h_1 rest heq =>
  injection hm with h1
  cases hw : w with
  | nil => rfl
  | cons x xs =>
    have hhead : (dropSpaces rest).head? = some x := by
      apply head?_takeWhile (p := fun c => c ≠ '\n')
      rw [h1, hw]
      rfl
    have hx : isPySpace x = false := head_dropWhile_not hhead
    rw [List.dropWhile_cons, if_neg (by simp [hx])]

/-- C8 counterexample: the returned value is not trimmed: trailing
whitespace inside the captured line survives, so `get(port)` on a file
`"port: 5 \n"` returns `"5 "`, not the trimmed `"5"`. -/
theorem C8_counterexample :
    getConfig ⟨[(["conf", "a.conf"], "port: 5 \n".toList)]⟩ "a.conf" "port" =
      Except.ok (some "5 ".toList) ∧
    pyStrip "5 ".toList = "5".toList ∧
    "5 ".toList ≠ "5".toList := by
  refine ⟨?_, by decide, by decide⟩
  simp +decide [getConfig, findConfigFiles, basename, isImportMatch, isConfMatch,
    readFile, getLoop, reSearchCapture, tryMatch, dropSpaces, isPySpace,
    Bind.bind, Except.bind]

/-- C8 amended: when the *first* candidate file matches the key, `get`
returns its captured value immediately — the lower-precedence files are
never consulted — and that value is left-trimmed by the pattern's `\s*`
(trailing whitespace is retained, unlike what the claim's "trimmed"
says; and if the first candidate does not match, `get` raises instead of
consulting the file that does, see C1). -/
theorem C8_first_candidate_value {key c w : List Char}
    (rest rest' : List (List Char))
    (h : reSearchCapture key c = some w) :
    getLoop key (c :: rest) = Except.ok (some w) ∧
    getLoop key (c :: rest) = getLoop key (c :: rest') ∧
    w.dropWhile isPySpace = w := by
  refine ⟨?_, ?_, capture_no_leading_space h⟩
  · rw [getLoop, h]
  · rw [getLoop, h, getLoop, h]

/-- C8 witness: the single-line content `port: 5` answers `5` no matter
what files follow. -/
theorem C8_first_candidate_value_witness :
    reSearchCapture "port".toList "port: 5".toList = some "5".toList ∧
    getLoop "port".toList ["port: 5".toList, "port: 9".toList] =
      Except.ok (some "5".toList) := by
  have h : reSearchCapture "port".toList "port: 5".toList = some "5".toList := by
    decide
  exact ⟨h, (C8_first_candidate_value ["port: 9".toList] [] h).1⟩

theorem isConfMatch_of_isImportMatch {base : String} {p : FPath}
    (h : isImportMatch base p = true) : isConfMatch base p = true := by
  rw [isImportMatch.eq_def] at h
  split at h
  case h_2 => exact absurd h (by simp)
  case h_1 c i rest =>
    simp only [Bool.and_eq_true, decide_eq_true_eq] at h
    obtain ⟨⟨hc, hi⟩, hlast⟩ := h
    rw [isConfMatch]
    simp only [Bool.and_eq_true, decide_eq_true_eq]
    refine ⟨hc, ?_⟩
    cases hr : rest with
    | nil => rw [hr] at hlast; simp at hlast
    | cons r rs =>
      rw [hr] at hlast
      rw [List.getLast?_cons_cons]
      exact hlast

/-- C2: `_find_config_files` lists every `conf/import/**` match before
every other `conf/**` match (de-duplicated by exact path), raises exactly
when nothing under `conf/` matches the basename, and therefore — when an
copy under `conf/import/` exists, the head of the candidate list —
the file `get` reads first and `set` rewrites — is an import match: `set` leaves every
non-import file unchanged. -/
theorem C2_find_config_files (fs : FS) (name : String) :
    (findConfigFiles fs name = Except.error PyErr.ioError ↔
      ∀ p ∈ fs.files.map Prod.fst, isConfMatch (basename name) p = false) ∧
    (∀ l, findConfigFiles fs name = Except.ok l →
      ∃ imp other, l = imp ++ other ∧
        (∀ p ∈ imp, isImportMatch (basename name) p = true) ∧
        (∀ p ∈ other, isConfMatch (basename name) p = true ∧
          isImportMatch (basename name) p = false)) ∧
    (∀ l, findConfigFiles fs name = Except.ok l →
      (∃ p ∈ fs.files.map Prod.fst, isImportMatch (basename name) p = true) →
      ∃ hd tl, l = hd :: tl ∧ isImportMatch (basename name) hd = true) ∧
    (∀ k v fs', setConfig fs name k v = Except.ok fs' →
      (∃ p ∈ fs.files.map Prod.fst, isImportMatch (basename name) p = true) →
      ∀ e ∈ fs.files, isImportMatch (basename name) e.1 = false → e ∈ fs'.files) := by
  have himp_sub : ∀ p ∈ (fs.files.map Prod.fst).filter (isImportMatch (basename name)),
      isImportMatch (basename name) p = true := by
    intro p hp
    exact (List.mem_filter.mp hp).2
  have herr : findConfigFiles fs name = Except.error PyErr.ioError ↔
      ∀ p ∈ fs.files.map Prod.fst, isConfMatch (basename name) p = false := by
    rw [findConfigFiles]
    split
    case isTrue hnil =>
      simp only [true_iff]
      intro p hp
      rcases List.append_eq_nil.mp hnil with ⟨h1, h2⟩
      by_contra hconf
      rw [Bool.not_eq_false] at hconf
      by_cases himp : isImportMatch (basename name) p = true
      · have : p ∈ (fs.files.map Prod.fst).filter (isImportMatch (basename name)) :=
          List.mem_filter.mpr ⟨hp, himp⟩
        rw [h1] at this
        exact absurd this (List.not_mem_nil p)
      · have hmem : p ∈ ((fs.files.map Prod.fst).filter (isConfMatch (basename name))).filter
            (fun q => ¬q ∈ (fs.files.map Prod.fst).filter (isImportMatch (basename name))) := by
          apply List.mem_filter.mpr
          refine ⟨List.mem_filter.mpr ⟨hp, hconf⟩, ?_⟩
          rw [decide_eq_true_eq]
          intro hin
          exact himp (List.mem_filter.mp hin).2
        rw [h2] at hmem
        exact absurd hmem (List.not_mem_nil p)
    case isFalse hnil =>
      simp only [reduceCtorEq, false_iff]
      intro hall
      apply hnil
      apply List.eq_nil_iff_forall_not_mem.mpr
      intro p hp
      rcases List.mem_append.mp hp with h1 | h1
      · obtain ⟨hmem, himp⟩ := List.mem_filter.mp h1
        have := hall p hmem
        rw [isConfMatch_of_isImportMatch himp] at this
        exact absurd this (by simp)
      · obtain ⟨h2, -⟩ := List.mem_filter.mp h1
        obtain ⟨hmem, hconf⟩ := List.mem_filter.mp h2
        have := hall p hmem
        rw [hconf] at this
        exact absurd this (by simp)
  have hok : ∀ l, findConfigFiles fs name = Except.ok l →
      l = (fs.files.map Prod.fst).filter (isImportMatch (basename name)) ++
        ((fs.files.map Prod.fst).filter (isConfMatch (basename name))).filter
          (fun q => ¬q ∈ (fs.files.map Prod.fst).filter (isImportMatch (basename name))) := by
    intro l hl
    rw [findConfigFiles] at hl
    split at hl
    case isTrue => exact absurd hl (by simp)
    case isFalse =>
      injection hl with h1
      exact h1.symm
  have hstruct : ∀ l, findConfigFiles fs name = Except.ok l →
      ∃ imp other, l = imp ++ other ∧
        (∀ p ∈ imp, isImportMatch (basename name) p = true) ∧
        (∀ p ∈ other, isConfMatch (basename name) p = true ∧
          isImportMatch (basename name) p = false) := by
    intro l hl
    refine ⟨_, _, hok l hl, himp_sub, ?_⟩
    intro p hp
    obtain ⟨h2, hnin⟩ := List.mem_filter.mp hp
    obtain ⟨hmem, hconf⟩ := List.mem_filter.mp h2
    rw [decide_eq_true_eq] at hnin
    refine ⟨hconf, ?_⟩
    by_contra himp
    rw [Bool.not_eq_false] at himp
    exact hnin (List.mem_filter.mpr ⟨hmem, himp⟩)
  have hhead : ∀ l, findConfigFiles fs name = Except.ok l →
      (∃ p ∈ fs.files.map Prod.fst, isImportMatch (basename name) p = true) →
      ∃ hd tl, l = hd :: tl ∧ isImportMatch (basename name) hd = true := by
    intro l hl hex
    obtain ⟨p, hp, himp⟩ := hex
    have heq := hok l hl
    have hpimp : p ∈ (fs.files.map Prod.fst).filter (isImportMatch (basename name)) :=
      List.mem_filter.mpr ⟨hp, himp⟩
    cases hcase : (fs.files.map Prod.fst).filter (isImportMatch (basename name)) with
    | nil => rw [hcase] at hpimp; exact absurd hpimp (List.not_mem_nil p)
    | cons hd tl' =>
      rw [hcase] at heq
      refine ⟨hd, tl' ++ _, by rw [heq]; rfl, ?_⟩
      exact himp_sub hd (by rw [hcase]; exact List.mem_cons_self hd tl')
  refine ⟨herr, hstruct, hhead, ?_⟩
  intro k v fs' hset hex e he hnimp
  rw [setConfig] at hset
  rcases hfind : findConfigFiles fs name with er | l
  · rw [hfind] at hset
    simp [Bind.bind, Except.bind] at hset
  · simp only [hfind, Bind.bind, Except.bind] at hset
    obtain ⟨hd, tl, rfl, hhd⟩ := hhead l hfind hex
    rcases hread : readFile fs hd with _ | config
    · simp only [hread] at hset
      exact absurd hset (by simp)
    · simp only [hread] at hset
      rcases hsetc : setContent k.toList v.toList config with _ | out
      · simp only [hsetc] at hset
        exact absurd hset (by simp)
      · simp only [hsetc] at hset
        injection hset with h1
        subst h1
        have hne : ¬e.1 = hd := by
          intro hz
          rw [hz] at hnimp
          rw [hhd] at hnimp
          exact absurd hnimp (by simp)
        have : (if e.1 = hd then (e.1, out) else e) = e := if_neg hne
        rw [← this]
        exact List.mem_map_of_mem _ he

/-- C2 witness: with both `conf/n.conf` and `conf/import/d/n.conf`
present, the candidate list starts with the override copy. -/
theorem C2_find_config_files_witness :
    ∃ hd tl,
      findConfigFiles
        ⟨[(["conf", "n.conf"], "a: 1".toList),
          (["conf", "import", "d", "n.conf"], "a: 1".toList)]⟩ "n.conf" =
        Except.ok (hd :: tl) ∧
      isImportMatch (basename "n.conf") hd = true := by
  have hfind :
      findConfigFiles
        ⟨[(["conf", "n.conf"], "a: 1".toList),
          (["conf", "import", "d", "n.conf"], "a: 1".toList)]⟩ "n.conf" =
        Except.ok [["conf", "import", "d", "n.conf"], ["conf", "n.conf"]] := by
    simp +decide [findConfigFiles, basename, isImportMatch, isConfMatch]
  obtain ⟨hd, tl, heq, himp⟩ :=
    (C2_find_config_files
      ⟨[(["conf", "n.conf"], "a: 1".toList),
        (["conf", "import", "d", "n.conf"], "a: 1".toList)]⟩ "n.conf").2.2.1
      _ hfind ⟨["conf", "import", "d", "n.conf"], by decide, by decide⟩
  exact ⟨hd, tl, by rw [hfind, heq], himp⟩

/-- C3 counterexample: `set` is not idempotent on file bytes: the file
`"k: 1\n\n"` has a trailing blank line, the first `set(k, 2)` rejoins it
as a trailing `'\n'` (`"k: 2\n"`), and the second `set(k, 2)` then drops
that trailing `'\n'` (`"k: 2"`), so the bytes differ. -/
theorem C3_counterexample :
    setContent "k".toList "2".toList "k: 1\n\n".toList = some "k: 2\n".toList ∧
    setContent "k".toList "2".toList "k: 2\n".toList = some "k: 2".toList ∧
    "k: 2\n".toList ≠ "k: 2".toList := by
  refine ⟨?_, ?_, by decide⟩
  · simp +decide [setContent, textHasKey, reSearchCapture, tryMatch, dropSpaces,
      isPySpace, splitlines, breakRest, isLineBreak, setLines, lineStep, reSub,
      quoteWrap, parsePat, parseGo, emitP, badPatChar, matchPs, atomMatch,
      subScan, joinLines]
  · simp +decide [setContent, textHasKey, reSearchCapture, tryMatch, dropSpaces,
      isPySpace, splitlines, breakRest, isLineBreak, setLines, lineStep, reSub,
      quoteWrap, parsePat, parseGo, emitP, badPatChar, matchPs, atomMatch,
      subScan, joinLines]

/-- C3 amended: `set(file, key, v)` is idempotent on file bytes provided
the value is a plain pattern (no regex metacharacters or backslashes), is
unquoted, carries no leading whitespace and no line terminators, and the
file either has no match of the key anywhere (append path), or consists of
non-matching lines around a single canonical matching line `key: old`
whose old value is a plain pattern occurring exactly once in that line,
with no trailing blank line. -/
theorem C3_set_idempotent {key v config : List Char}
    (hkbf : ∀ ch ∈ key, isLineBreak ch = false)
    (hvp : plainPat v = true) (hvq : ¬v.head? = some '"')
    (hvbf : ∀ ch ∈ v, isLineBreak ch = false) (hvds : dropSpaces v = v)
    (h : textHasKey key config = false ∨
      ∃ A c B, splitlines config = A ++ [key ++ ':' :: ' ' :: c] ++ B ∧
        (∀ l ∈ A, reSearchCapture key l = none) ∧
        (∀ l ∈ B, reSearchCapture key l = none) ∧
        c ≠ [] ∧ plainPat c = true ∧ dropSpaces c = c ∧
        countOcc c ((key ++ [':', ' ']) ++ c) = 1 ∧
        ¬B.getLast? = some []) :
    ∀ out, setContent key v config = some out → setContent key v out = some out := by
  have hvnl : ∀ ch ∈ v, ¬ch = '\n' := fun ch hc => ne_nl_of_not_break (hvbf ch hc)
  intro out hout
  rcases h with hfalse | ⟨A, c, B, hsplit, hA, hB, hcne, hcp, hds, hcount, hlastB⟩
  · -- append path
    rw [setContent_append hfalse] at hout
    injection hout with h1
    subst h1
    have hNbf : ∀ ch ∈ key ++ ':' :: ' ' :: v, isLineBreak ch = false := by
      intro ch hch
      rcases List.mem_append.mp hch with h1 | h1
      · exact hkbf ch h1
      · rcases List.mem_cons.mp h1 with rfl | h1
        · decide
        · rcases List.mem_cons.mp h1 with rfl | h1
          · decide
          · exact hvbf ch h1
    have hsplit2 : splitlines (joinLines (splitlines config ++ [key ++ ':' :: ' ' :: v])) =
        splitlines config ++ [key ++ ':' :: ' ' :: v] := by
      apply splitlines_joinLines (by simp)
      · intro l hl
        rcases List.mem_append.mp hl with h1 | h1
        · exact breakfree_of_mem_splitlines h1
        · rcases List.mem_cons.mp h1 with rfl | h1
          · exact hNbf
          · exact absurd h1 (List.not_mem_nil _)
      · rw [List.getLast?_concat]
        intro hx
        injection hx with h2
        exact absurd h2 (by simp)
    have hcapN : reSearchCapture key (key ++ ':' :: ' ' :: v) = some v :=
      reSearch_canonical hvds hvnl
    have hhask2 : textHasKey key
        (joinLines (splitlines config ++ [key ++ ':' :: ' ' :: v])) = true := by
      apply textHasKey_of_line (l := key ++ ':' :: ' ' :: v)
      · rw [hsplit2]; simp
      · rw [hcapN]; rfl
    have hLnone := line_none_of_no_textKey hfalse
    have hstepN : lineStep key v (key ++ ':' :: ' ' :: v) =
        some (key ++ ':' :: ' ' :: v, v) :=
      lineStep_fixed hvds hvnl (quoteWrap_of_not_quote hvq) hvp
    rw [setContent_rewrite hhask2, hsplit2, setLines_nonmatch_front hLnone]
    have hsl : setLines key v [key ++ ':' :: ' ' :: v] =
        some [key ++ ':' :: ' ' :: v] := by
      simp only [setLines, hstepN]
    rw [hsl, Option.map_some', Option.map_some']
  · -- rewrite path
    have hMmem : key ++ ':' :: ' ' :: c ∈ splitlines config := by
      rw [hsplit]; simp
    have hMbf := breakfree_of_mem_splitlines hMmem
    have hcbf : ∀ ch ∈ c, isLineBreak ch = false := by
      intro ch hch
      exact hMbf ch (by simp [hch])
    have hnlc : ∀ ch ∈ c, ¬ch = '\n' := fun ch hc => ne_nl_of_not_break (hcbf ch hc)
    have hcapM : reSearchCapture key (key ++ ':' :: ' ' :: c) = some c :=
      reSearch_canonical hds hnlc
    have hhask : textHasKey key config = true := by
      apply textHasKey_of_line hMmem
      rw [hcapM]; rfl
    have hstep : lineStep key v (key ++ ':' :: ' ' :: c) =
        some (key ++ ':' :: ' ' :: quoteWrap c v, quoteWrap c v) :=
      lineStep_canonical hds hnlc hcne hcp hcount (not_mem_bs_of_plain hvp)
    rw [setContent_rewrite hhask, hsplit, List.append_assoc,
      setLines_nonmatch_front hA] at hout
    have hsl : setLines key v ((key ++ ':' :: ' ' :: c) :: B) =
        some ((key ++ ':' :: ' ' :: quoteWrap c v) :: B) := by
      simp only [setLines, hstep, setLines_all_nomatch hB]
    rw [show ([key ++ ':' :: ' ' :: c] ++ B) = (key ++ ':' :: ' ' :: c) :: B from rfl,
      hsl, Option.map_some', Option.map_some'] at hout
    injection hout with h1
    subst h1
    -- the second pass over A ++ [key: quoteWrap c v] ++ B
    have hvqbf : ∀ ch ∈ quoteWrap c v, isLineBreak ch = false :=
      breakfree_quoteWrap hvbf
    have hvqds : dropSpaces (quoteWrap c v) = quoteWrap c v := dropSpaces_quoteWrap hvds
    have hvqnl : ∀ ch ∈ quoteWrap c v, ¬ch = '\n' :=
      fun ch hc => ne_nl_of_not_break (hvqbf ch hc)
    have hM2bf : ∀ ch ∈ key ++ ':' :: ' ' :: quoteWrap c v, isLineBreak ch = false := by
      intro ch hch
      rcases List.mem_append.mp hch with h1 | h1
      · exact hkbf ch h1
      · rcases List.mem_cons.mp h1 with rfl | h1
        · decide
        · rcases List.mem_cons.mp h1 with rfl | h1
          · decide
          · exact hvqbf ch h1
    have hAbf : ∀ l ∈ A, ∀ ch ∈ l, isLineBreak ch = false := by
      intro l hl
      apply breakfree_of_mem_splitlines (s := config)
      rw [hsplit]
      exact List.mem_append_left _ (List.mem_append_left _ hl)
    have hBbf : ∀ l ∈ B, ∀ ch ∈ l, isLineBreak ch = false := by
      intro l hl
      apply breakfree_of_mem_splitlines (s := config)
      rw [hsplit]
      exact List.mem_append_right _ hl
    rw [show (A ++ (key ++ ':' :: ' ' :: quoteWrap c v) :: B) =
      A ++ [key ++ ':' :: ' ' :: quoteWrap c v] ++ B by simp]
    have hsplit2 : splitlines
        (joinLines (A ++ [key ++ ':' :: ' ' :: quoteWrap c v] ++ B)) =
        A ++ [key ++ ':' :: ' ' :: quoteWrap c v] ++ B := by
      apply splitlines_joinLines (by simp)
      · intro l hl
        rcases List.mem_append.mp hl with h1 | h1
        · rcases List.mem_append.mp h1 with h2 | h2
          · exact hAbf l h2
          · rcases List.mem_cons.mp h2 with rfl | h2
            · exact hM2bf
            · exact absurd h2 (List.not_mem_nil _)
        · exact hBbf l h1
      · exact last_of_three_ne_nil (by simp) hlastB
    have hcapM2 : reSearchCapture key (key ++ ':' :: ' ' :: quoteWrap c v) =
        some (quoteWrap c v) := reSearch_canonical hvqds hvqnl
    have hhask2 : textHasKey key
        (joinLines (A ++ [key ++ ':' :: ' ' :: quoteWrap c v] ++ B)) = true := by
      apply textHasKey_of_line (l := key ++ ':' :: ' ' :: quoteWrap c v)
      · rw [hsplit2]; simp
      · rw [hcapM2]; rfl
    have hstep2 : lineStep key v (key ++ ':' :: ' ' :: quoteWrap c v) =
        some (key ++ ':' :: ' ' :: quoteWrap c v, quoteWrap c v) :=
      lineStep_fixed hvqds hvqnl (quoteWrap_idem hvq) (plainPat_quoteWrap hvp)
    rw [setContent_rewrite hhask2, hsplit2, List.append_assoc,
      setLines_nonmatch_front hA]
    have hsl2 : setLines key v ((key ++ ':' :: ' ' :: quoteWrap c v) :: B) =
        some ((key ++ ':' :: ' ' :: quoteWrap c v) :: B) := by
      simp only [setLines, hstep2, setLines_all_nomatch hB]
    rw [show ([key ++ ':' :: ' ' :: quoteWrap c v] ++ B) =
      (key ++ ':' :: ' ' :: quoteWrap c v) :: B from rfl, hsl2,
      Option.map_some', Option.map_some']

/-- C3 witness: `set(k, 2)` on `"a\nk: 1"` gives `"a\nk: 2"`, and a second
identical `set` leaves the bytes unchanged. -/
theorem C3_set_idempotent_witness :
    setContent "k".toList "2".toList "a\nk: 1".toList = some "a\nk: 2".toList ∧
    setContent "k".toList "2".toList "a\nk: 2".toList = some "a\nk: 2".toList := by
  have h1 : setContent "k".toList "2".toList "a\nk: 1".toList =
      some "a\nk: 2".toList := by
    simp +decide [setContent, textHasKey, reSearchCapture, tryMatch, dropSpaces,
      isPySpace, splitlines, breakRest, isLineBreak, setLines, lineStep, reSub,
      quoteWrap, parsePat, parseGo, emitP, badPatChar, matchPs, atomMatch,
      subScan, joinLines]
  have hsplit : splitlines "a\nk: 1".toList =
      ["a".toList] ++ ["k".toList ++ ':' :: ' ' :: "1".toList] ++ [] := by
    simp +decide [splitlines, breakRest, isLineBreak]
  refine ⟨h1, ?_⟩
  exact @C3_set_idempotent "k".toList "2".toList "a\nk: 1".toList
    (by decide) (by decide) (by decide) (by decide) (by decide)
    (Or.inr ⟨["a".toList], "1".toList, [], hsplit, by decide, by decide,
      by decide, by decide, by decide, by decide, by decide⟩)
    "a\nk: 2".toList h1
